import Mathlib

/-!
Verification of the day 16 solver (`src/bin/day16.rs`): a Dijkstra-based
distance oracle (`calc_distance`) feeding a best-first branch-and-bound
search (`find_max_pressure_release`) over valve-opening states.

Modelling conventions:
* Rust `[char; 2]` valve ids are embedded into `Nat` by `vid c1 c2 =
  256 * c1.toNat + c2.toNat`; for the two-letter ids used by the program
  this embedding is strictly monotone with respect to the lexicographic
  order on `[char; 2]`, and the code only ever compares ids for equality
  and order, so `Nat` is a faithful carrier.
* Rust `HashMap`s are embedded as association lists; the list order plays
  the role of the (fixed, per-map) iteration order of the `HashMap`.
* `BinaryHeap` is embedded as a list; popping takes the extremal element
  with respect to the code's `Ord` instance, breaking ties (whose order a
  `BinaryHeap` leaves unspecified) by taking the earliest pushed element.
* Machine integers (`usize`) are embedded as `Nat`; the only subtraction
  performed (`time - (distance + 1)`) is guarded by `time > distance`, so
  no wrap-around can occur and `Nat` subtraction agrees with `usize`.
* Panics (`HashMap` indexing with a missing key, `unwrap_or_else(panic!..)`)
  are embedded as `none` / a `panicked` result constructor.
* The unbounded `while let` loops are embedded with an explicit fuel
  parameter; the fuel passed by the top-level functions is an explicit
  bound proved (and, on concrete inputs, computed) to be sufficient, so
  fuel exhaustion is unreachable.
-/

namespace Day16

abbrev ValveId := Nat

/-- Embedding of a two-character valve id `[c1, c2]` into `Nat`. -/
def vid (c1 c2 : Char) : ValveId := 256 * c1.toNat + c2.toNat

structure Valve where
  id : ValveId
  flow_rate : Nat
  tunnels : List ValveId
deriving DecidableEq, Repr

/-- `HashMap<ValveId, Valve>` as an association list (list order = iteration order). -/
abbrev ValveMap := List (ValveId × Valve)

/-- `HashMap<(ValveId, ValveId), usize>` as an association list. -/
abbrev DistTable := List ((ValveId × ValveId) × Nat)

/-- Association-list lookup (first matching key), i.e. `HashMap::get`. -/
def alookup {α β : Type} [DecidableEq α] : List (α × β) → α → Option β
  | [], _ => none
  | p :: l, k => if p.1 = k then some p.2 else alookup l k

/-- Overwrite the value of the first entry with key `k` (i.e. `*map.get_mut(k) = v`). -/
def assoc_set {α β : Type} [DecidableEq α] : List (α × β) → α → β → List (α × β)
  | [], _, _ => []
  | p :: l, k, v => if p.1 = k then (k, v) :: l else p :: assoc_set l k v

/-! ## `calc_distance` (Dijkstra distance oracle) -/

/-- Outcome of `calc_distance`: `found c` embeds `Some(c)`, `unreachable` embeds
`None`, `panicked` embeds a panic (missing valve or missing `costs` entry), and
`fuel_out` marks exhaustion of the explicit fuel (proved unreachable for the
fuel supplied by `calc_distance`). -/
inductive DijkstraResult where
  | found : Nat → DijkstraResult
  | unreachable : DijkstraResult
  | panicked : DijkstraResult
  | fuel_out : DijkstraResult
deriving DecidableEq, Repr

/-- Pop the minimum-cost entry from the heap of `(cost, pos)` pairs (the Rust
`State` with its reversed `Ord` makes `BinaryHeap` a min-heap on `cost`; among
equal costs the earliest pushed entry is taken, a deterministic instance of the
heap's unspecified tie order). -/
def pop_min : List (Nat × ValveId) → Option ((Nat × ValveId) × List (Nat × ValveId))
  | [] => none
  | e :: rest =>
    match pop_min rest with
    | none => some (e, [])
    | some (m, rest2) => if m.1 < e.1 then some (m, e :: rest2) else some (e, rest)

/-- The relaxation loop over `valve.tunnels`: for each neighbour, `new_cost =
cost + 1`; if `new_cost < *costs.entry(n).or_insert(usize::MAX)` the entry is
set to `new_cost` and `(new_cost, n)` is pushed.  (A fresh entry is compared
against `usize::MAX`, which `new_cost` is always below, hence the `none` case
always relaxes.) -/
def relax_all (cost : Nat) :
    List ValveId → List (ValveId × Nat) → List (Nat × ValveId) →
    List (ValveId × Nat) × List (Nat × ValveId)
  | [], costs, heap => (costs, heap)
  | n :: rest, costs, heap =>
    let new_cost := cost + 1
    match alookup costs n with
    | none => relax_all cost rest (costs ++ [(n, new_cost)]) (heap ++ [(new_cost, n)])
    | some c =>
      if new_cost < c then relax_all cost rest (assoc_set costs n new_cost) (heap ++ [(new_cost, n)])
      else relax_all cost rest costs heap

/-- The `while let Some(State { cost, pos }) = open.pop()` loop of `calc_distance`. -/
def dijkstra_loop (valves : ValveMap) (finish : ValveId) :
    Nat → List (Nat × ValveId) → List (ValveId × Nat) → DijkstraResult
  | 0, _, _ => .fuel_out
  | fuel + 1, heap, costs =>
    match pop_min heap with
    | none => .unreachable
    | some ((cost, pos), rest) =>
      if pos = finish then .found cost
      else
        match alookup costs pos with
        | none => .panicked
        | some cp =>
          if cp < cost then dijkstra_loop valves finish fuel rest costs
          else
            match alookup valves pos with
            | none => .panicked
            | some v =>
              let ch := relax_all cost v.tunnels costs rest
              dijkstra_loop valves finish fuel ch.2 ch.1

/-- All node ids mentioned by the valves map (keys and tunnel targets) together
with `start`; the universe in which every `costs` key stays. -/
def node_universe (start : ValveId) (valves : ValveMap) : List ValveId :=
  start :: valves.flatMap (fun p => p.1 :: p.2.tunnels)

/-- Fuel sufficient for `dijkstra_loop` (strictly larger than the initial value
of the potential `dphi` below). -/
def dijkstra_fuel (start : ValveId) (valves : ValveMap) : Nat :=
  ((node_universe start valves).length + 1) * ((node_universe start valves).length + 2) + 2

/-- Embedding of `calc_distance(start, end, valves)`. -/
def calc_distance (start finish : ValveId) (valves : ValveMap) : DijkstraResult :=
  dijkstra_loop valves finish (dijkstra_fuel start valves) [(0, start)] [(start, 0)]

/-! ## Search state (`State<N>`) -/

/-- Embedding of `State<N>`; the fixed-size arrays `[ValveId; N]` and
`[usize; N]` are embedded as lists whose length-`N` invariant is carried by the
theorems. -/
structure State where
  current_pos : List ValveId
  visited : List ValveId
  time : List Nat
  score : Nat
deriving DecidableEq, Repr

/-- `State::new(start, time)`. -/
def State.new (N : Nat) (start : ValveId) (time : Nat) : State :=
  { current_pos := List.replicate N start
    visited := []
    time := List.replicate N time
    score := 0 }

/-- `State::not_visited`: ids of valves with positive flow rate not yet in the
visited set, in map-iteration order. -/
def State.not_visited (s : State) (valves : ValveMap) : List ValveId :=
  valves.filterMap (fun p => if p.2.flow_rate > 0 ∧ p.1 ∉ s.visited then some p.1 else none)

/-- The body of the `filter_map` closure of `next_states` for one pair
`(i, next)`.  Outer `none` embeds the panic of `distances[&(pos, next)]` (or of
`valves[&next]`) on a missing key; `some none` embeds the closure returning
`None` (no transition); `some (some (state, inc))` a generated transition. -/
def gen_transition (s : State) (valves : ValveMap) (dists : DistTable)
    (i : Nat) (next : ValveId) : Option (Option (State × Nat)) :=
  match alookup dists (s.current_pos.getD i 0, next) with
  | none => none
  | some distance =>
    if s.time.getD i 0 > distance then
      match alookup valves next with
      | none => none
      | some valve =>
        let new_time := s.time.getD i 0 - (distance + 1)
        some (some
          ({ current_pos := s.current_pos.set i next
             visited := List.insertionSort (· ≤ ·) (s.visited ++ [next])
             time := s.time.set i new_time
             score := s.score },
           valve.flow_rate * new_time))
    else some none

/-- Collect the generated transitions for a list of `(i, next)` pairs,
propagating a panic as `none`. -/
def transitions_for (s : State) (valves : ValveMap) (dists : DistTable) :
    List (Nat × ValveId) → Option (List (State × Nat))
  | [] => some []
  | p :: rest =>
    match gen_transition s valves dists p.1 p.2 with
    | none => none
    | some none => transitions_for s valves dists rest
    | some (some e) => (transitions_for s valves dists rest).map (e :: ·)

/-- `State::next_states`: `(0..N).cartesian_product(not_visited)` filtered and
mapped by `gen_transition`.  `none` embeds a panic during generation. -/
def State.next_states (N : Nat) (s : State) (valves : ValveMap) (dists : DistTable) :
    Option (List (State × Nat)) :=
  transitions_for s valves dists ((List.range N).product (s.not_visited valves))

/-- `(0..=t).rev().step_by(2)`: the time slots `t, t-2, ...` down to `1` or `0`. -/
def time_slots : Nat → List Nat
  | 0 => [0]
  | 1 => [1]
  | t + 2 => (t + 2) :: time_slots t

/-- Map a fallible function over a list, propagating failure (`none` embeds a
panic inside the mapped closure). -/
def map_opt {α β : Type} (f : α → Option β) : List α → Option (List β)
  | [] => some []
  | a :: l =>
    match f a with
    | none => none
    | some b => (map_opt f l).map (b :: ·)

/-- The per-agent summand of `potential_score`: time slots zipped against the
not-visited valves sorted by id descending (`sorted_unstable_by(|a, b| b.cmp(a))`
sorts the `ValveId`s), each contributing `time_slot * flow_rate`.  `none`
embeds the panic of `valves[&valve]` on a missing key. -/
def agent_potential (s : State) (valves : ValveMap) (i : Nat) : Option Nat :=
  (map_opt
    (fun tv => (alookup valves tv.2).map (fun valve => tv.1 * valve.flow_rate))
    ((time_slots (s.time.getD i 0)).zip
      (List.insertionSort (· ≥ ·) (s.not_visited valves)))).map
    List.sum

/-- `State::potential_score`: the sum over agents of `agent_potential`. -/
def State.potential_score (N : Nat) (s : State) (valves : ValveMap) : Option Nat :=
  (map_opt (agent_potential s valves) (List.range N)).map List.sum

/-! ## `find_max_pressure_release` (best-first branch and bound) -/

/-- Pop the maximum entry of the `BinaryHeap<(State<N>, usize)>`.  The derived
tuple `Ord` compares the `State` first — whose own `Ord` compares only the
`score` field — and then the `usize`; ties (unspecified heap order) are broken
by taking the earliest pushed entry. -/
def pop_max : List (State × Nat) → Option ((State × Nat) × List (State × Nat))
  | [] => none
  | e :: rest =>
    match pop_max rest with
    | none => some (e, [])
    | some (m, rest2) =>
      if e.1.score < m.1.score ∨ (e.1.score = m.1.score ∧ e.2 < m.2) then
        some (m, e :: rest2)
      else some (e, rest)

/-- The body of the `for (new_state, score_increase) in state.next_states(..)`
loop: for each child, `new_score = score + score_increase` and `potential =
new_state.potential_score(valves)`; if `new_score + potential > max_score` and
`new_score > *scores.entry(new_state).or_insert(usize::MIN)` (the `entry` call
inserts `0` when absent even if the comparison then fails), the entry is set to
`new_score` and the child pushed.  `none` embeds a panic inside
`potential_score`. -/
def push_children (N : Nat) (score max_score : Nat) (valves : ValveMap) :
    List (State × Nat) → List (State × Nat) → List (State × Nat) →
    Option (List (State × Nat) × List (State × Nat))
  | [], scores, heap => some (scores, heap)
  | (ns, inc) :: rest, scores, heap =>
    match State.potential_score N ns valves with
    | none => none
    | some potential =>
      let new_score := score + inc
      if new_score + potential > max_score then
        let scores1 := match alookup scores ns with
          | some _ => scores
          | none => scores ++ [(ns, 0)]
        if new_score > (alookup scores1 ns).getD 0 then
          push_children N score max_score valves rest
            (assoc_set scores1 ns new_score) (heap ++ [(ns, new_score)])
        else push_children N score max_score valves rest scores1 heap
      else push_children N score max_score valves rest scores heap

/-- The `while let Some((state, score)) = open.pop()` loop of
`find_max_pressure_release`. -/
def search_loop (N : Nat) (valves : ValveMap) (dists : DistTable) :
    Nat → List (State × Nat) → List (State × Nat) → Nat → Option Nat
  | 0, _, _, _ => none
  | fuel + 1, heap, scores, max_score =>
    match pop_max heap with
    | none => some max_score
    | some ((state, score), rest) =>
      match alookup scores state with
      | none => none
      | some best =>
        if score < best then search_loop N valves dists fuel rest scores max_score
        else
          let max_score1 := max max_score score
          match State.next_states N state valves dists with
          | none => none
          | some children =>
            match push_children N score max_score1 valves children scores rest with
            | none => none
            | some (scores1, heap1) => search_loop N valves dists fuel heap1 scores1 max_score1

/-- Ids of the positive-flow valves (in map order). -/
def positive_ids (valves : ValveMap) : List ValveId :=
  valves.filterMap (fun p => if p.2.flow_rate > 0 then some p.1 else none)

/-- `(number of positive valves not yet visited by s)`: the decrease measure of
the search. -/
def sdepth (valves : ValveMap) (s : State) : Nat :=
  ((positive_ids valves).filter (fun v => decide (v ∉ s.visited))).length

/-- Potential of a search heap: every loop iteration strictly decreases it. -/
def sphi (N : Nat) (valves : ValveMap) (heap : List (State × Nat)) : Nat :=
  (heap.map (fun e => (N * (positive_ids valves).length + 1) ^ sdepth valves e.1)).sum

/-- The hard-coded start valve `['A', 'A']`. -/
def start_id : ValveId := vid 'A' 'A'

/-- Embedding of `find_max_pressure_release::<N>(time, valves, distances)`.
`none` embeds a panic.  The fuel is one more than the initial potential `sphi`,
which is proved sufficient (`search_loop` pops one heap entry per iteration and
`sphi` strictly decreases). -/
def find_max_pressure_release (N : Nat) (time : Nat)
    (valves : ValveMap) (dists : DistTable) : Option Nat :=
  let initial_state := State.new N start_id time
  search_loop N valves dists (sphi N valves [(initial_state, 0)] + 1)
    [(initial_state, 0)] [(initial_state, 0)] 0

/-! ## Specification-side definitions -/

/-- Run a chosen sequence of `(agent, valve)` openings through the code's own
transition generator, returning the total accumulated score increase; `none` if
some chosen opening is not a legal transition. -/
def run_choices (valves : ValveMap) (dists : DistTable) :
    State → List (Nat × ValveId) → Option Nat
  | _, [] => some 0
  | s, c :: rest =>
    match gen_transition s valves dists c.1 c.2 with
    | some (some (ns, inc)) => (run_choices valves dists ns rest).map (inc + ·)
    | _ => none

/-- States produced by `State::new` or by `next_states` from such a state. -/
inductive Produced (N : Nat) (valves : ValveMap) (dists : DistTable) (time : Nat) :
    State → Prop
  | base : Produced N valves dists time (State.new N start_id time)
  | step {s ns inc} (hs : Produced N valves dists time s)
      (hsome : (State.next_states N s valves dists).isSome)
      (hmem : (ns, inc) ∈ (State.next_states N s valves dists).getD []) :
      Produced N valves dists time ns

/-- Well-formedness of a search state for agent count `N`: the position and
time arrays have length `N` and every position is an interesting node (the
start valve or a positive-flow valve). -/
def StateOk (N : Nat) (valves : ValveMap) (s : State) : Prop :=
  s.current_pos.length = N ∧ s.time.length = N ∧
    ∀ p ∈ s.current_pos, p ∈ start_id :: positive_ids valves

/-- The distance table has an entry for every pair the search can query:
(interesting position, positive-flow valve). -/
def DistComplete (valves : ValveMap) (dists : DistTable) : Prop :=
  ∀ p ∈ start_id :: positive_ids valves, ∀ v ∈ positive_ids valves,
    (alookup dists (p, v)).isSome

/-- Flow rate of a valve id under the map (the same first-match lookup the code
performs; total with default `0`, used only on ids present in the map). -/
def flow_of (valves : ValveMap) (v : ValveId) : Nat :=
  ((alookup valves v).map Valve.flow_rate).getD 0

/-- Per-agent potential stated arithmetically: time slots zipped against the
not-visited valves sorted by valve id descending, summing
`time_slot * flow_rate`. -/
def agent_potential_by_id (s : State) (valves : ValveMap) (i : Nat) : Nat :=
  (List.zipWith (fun t v => t * flow_of valves v)
    (time_slots (s.time.getD i 0))
    (List.insertionSort (· ≥ ·) (s.not_visited valves))).sum

/-- The pairing claimed by the specification: time slots against the
not-visited valves sorted by flow rate descending. -/
def agent_potential_by_flow (s : State) (valves : ValveMap) (i : Nat) : Nat :=
  (List.zipWith (fun t v => t * flow_of valves v)
    (time_slots (s.time.getD i 0))
    (List.insertionSort (fun a b => flow_of valves b ≤ flow_of valves a)
      (s.not_visited valves))).sum

/-- Sum over agents of `agent_potential_by_id`. -/
def potential_by_id (N : Nat) (s : State) (valves : ValveMap) : Nat :=
  ((List.range N).map (agent_potential_by_id s valves)).sum

/-- Sum over agents of `agent_potential_by_flow` (the specification's claimed
flow-rate-descending pairing). -/
def potential_by_flow (N : Nat) (s : State) (valves : ValveMap) : Nat :=
  ((List.range N).map (agent_potential_by_flow s valves)).sum

/-- Tunnel list of a valve id (empty for ids not in the map; used only on ids
present in the map). -/
def tunnels_of (valves : ValveMap) (v : ValveId) : List ValveId :=
  ((alookup valves v).map Valve.tunnels).getD []

/-- `walkB valves n a b`: there is a walk of exactly `n` tunnel hops from `a`
to `b`. -/
def walkB (valves : ValveMap) : Nat → ValveId → ValveId → Bool
  | 0, a, b => decide (a = b)
  | n + 1, a, b => (tunnels_of valves a).any (fun c => walkB valves n c b)

/-- `r` is the minimum walk-length from `a` to `b` (`none` = no walk). -/
def IsMinWalk (valves : ValveMap) (a b : ValveId) : Option Nat → Prop
  | some c => walkB valves c a b = true ∧ ∀ m, walkB valves m a b = true → c ≤ m
  | none => ∀ m, walkB valves m a b ≠ true

/-- Every tunnel target of a valve in the map is itself a valve of the map. -/
def ClosedMap (valves : ValveMap) : Prop :=
  ∀ p ∈ valves.map Prod.fst, ∀ t ∈ tunnels_of valves p, t ∈ valves.map Prod.fst

/-- The tunnel relation is symmetric. -/
def SymMap (valves : ValveMap) : Prop :=
  ∀ a ∈ valves.map Prod.fst, ∀ b ∈ tunnels_of valves a, a ∈ tunnels_of valves b

/-! ## Concrete inputs used by witnesses and counterexamples -/

def idAB : ValveId := vid 'A' 'B'
def idAC : ValveId := vid 'A' 'C'
def idAD : ValveId := vid 'A' 'D'
def idAE : ValveId := vid 'A' 'E'
def idAF : ValveId := vid 'A' 'F'
def idZA : ValveId := vid 'Z' 'A'
def idZB : ValveId := vid 'Z' 'B'
def idZC : ValveId := vid 'Z' 'C'
def idBB : ValveId := vid 'B' 'B'
def idCC : ValveId := vid 'C' 'C'

/-- Close a table under symmetry (the same symmetric caching `main` performs). -/
def sym_table (l : DistTable) : DistTable :=
  l ++ l.map (fun e => ((e.1.2, e.1.1), e.2))

/-- The specification's concrete fixture: `AA` (flow 0, start), `BB` (flow 13,
1 hop from `AA`), `CC` (flow 2, 1 hop from `BB`). -/
def fix_valves : ValveMap :=
  [(start_id, ⟨start_id, 0, [idBB]⟩),
   (idBB, ⟨idBB, 13, [start_id, idCC]⟩),
   (idCC, ⟨idCC, 2, [idBB]⟩)]

/-- Shortest-hop distances of `fix_valves`. -/
def fix_dists : DistTable :=
  sym_table [((start_id, idBB), 1), ((start_id, idCC), 2), ((idBB, idCC), 1)]

/-- `fix_dists` extended with the (never queried) self-distance entries, so
that the table has an entry for every (interesting, positive) pair. -/
def fix_dists_full : DistTable :=
  fix_dists ++ [((idBB, idBB), 0), ((idCC, idCC), 0)]

/-- Valves of the pruning counterexample: an east chain `AB, AC, AD` (flow 100
each, 5 corridor hops from the start, then 1 hop apart), a west pair `AE`
(flow 150), `AF` (flow 90) (6 corridor hops from the start, 1 hop apart), and
three far-away flow-1 valves `ZA, ZB, ZC` whose high ids absorb the largest
time slots of `potential_score`. -/
def cb_valves : ValveMap :=
  [(start_id, ⟨start_id, 0, []⟩),
   (idAB, ⟨idAB, 100, []⟩), (idAC, ⟨idAC, 100, []⟩), (idAD, ⟨idAD, 100, []⟩),
   (idAE, ⟨idAE, 150, []⟩), (idAF, ⟨idAF, 90, []⟩),
   (idZA, ⟨idZA, 1, []⟩), (idZB, ⟨idZB, 1, []⟩), (idZC, ⟨idZC, 1, []⟩)]

/-- Shortest-hop distances of the (connected, undirected) corridor graph
realizing `cb_valves`: `AA -5- AB -1- AC -1- AD`, `AA -6- AE -1- AF`,
`AA -12- ZA -1- ZB -1- ZC` with zero-flow pass-through corridor nodes. -/
def cb_dists : DistTable := sym_table
  [((start_id, idAB), 5), ((start_id, idAC), 6), ((start_id, idAD), 7),
   ((start_id, idAE), 6), ((start_id, idAF), 7),
   ((start_id, idZA), 12), ((start_id, idZB), 13), ((start_id, idZC), 14),
   ((idAB, idAC), 1), ((idAB, idAD), 2), ((idAB, idAE), 11), ((idAB, idAF), 12),
   ((idAB, idZA), 17), ((idAB, idZB), 18), ((idAB, idZC), 19),
   ((idAC, idAD), 1), ((idAC, idAE), 12), ((idAC, idAF), 13),
   ((idAC, idZA), 18), ((idAC, idZB), 19), ((idAC, idZC), 20),
   ((idAD, idAE), 13), ((idAD, idAF), 14),
   ((idAD, idZA), 19), ((idAD, idZB), 20), ((idAD, idZC), 21),
   ((idAE, idAF), 1),
   ((idAE, idZA), 18), ((idAE, idZB), 19), ((idAE, idZC), 20),
   ((idAF, idZA), 19), ((idAF, idZB), 20), ((idAF, idZC), 21),
   ((idZA, idZB), 1), ((idZA, idZC), 2), ((idZB, idZC), 1)]

/-- The state reached from the initial state (time budget 12, one agent) by
opening `AB` and then `AC`: position `AC`, 4 time units left. -/
def cb_s2 : State := ⟨[idAC], [idAB, idAC], [4], 0⟩

/-- Two positive valves where id order and flow order disagree: `AB` has the
big flow but the small id. -/
def p3_valves : ValveMap :=
  [(start_id, ⟨start_id, 0, []⟩), (idAB, ⟨idAB, 100, []⟩), (idZA, ⟨idZA, 1, []⟩)]

/-- A state with 4 time units left for the single agent. -/
def p3_state : State := ⟨[start_id], [], [4], 0⟩

/-- Valves for the missing-distance-entry scenario: two positive valves. -/
def m4_valves : ValveMap :=
  [(start_id, ⟨start_id, 0, []⟩), (idBB, ⟨idBB, 5, []⟩), (idCC, ⟨idCC, 7, []⟩)]

/-- A table with an entry for `(AA, CC)` but none for `(AA, BB)`. -/
def m4_dists : DistTable := [((start_id, idCC), 1)]

/-- Single positive valve `BB` at distance 3 from the start. -/
def b5_valves : ValveMap :=
  [(start_id, ⟨start_id, 0, []⟩), (idBB, ⟨idBB, 9, []⟩)]

def b5_dists : DistTable := sym_table [((start_id, idBB), 3)]

/-- A well-formed but directed graph: a tunnel from `AA` to `BB` with no
reverse tunnel. -/
def asym_valves : ValveMap :=
  [(start_id, ⟨start_id, 0, [idBB]⟩), (idBB, ⟨idBB, 0, []⟩)]

/-! ## Invariants and potentials used in the termination proofs -/

/-- Potential of one node for the Dijkstra termination measure: its current
`costs` value, or `|U| + 1` while it has no entry. -/
def dpot (U : List ValveId) (costs : List (ValveId × Nat)) (p : ValveId) : Nat :=
  match alookup costs p with
  | none => U.length + 1
  | some c => c

/-- Dijkstra termination potential: strictly decreases on every loop
iteration. -/
def dphi (U : List ValveId) (costs : List (ValveId × Nat))
    (heap : List (Nat × ValveId)) : Nat :=
  heap.length + (U.map (dpot U costs)).sum

/-- Encode an optional minimum walk length as the Dijkstra outcome. -/
def dresult : Option Nat → DijkstraResult
  | some c => .found c
  | none => .unreachable

/-- Invariant of the Dijkstra loop, with ghost settled set `S`:
* `costs` has distinct keys, all in the node universe and in the valves map,
  every value below the number of keys, and every value the length of an
  actual walk from `a`;
* the start `a` has cost 0;
* every heap entry's cost is a walk length to its position, and its position
  has a `costs` entry bounded by the entry's cost;
* every unsettled `costs` key has a live heap entry carrying its current value;
* every settled node is not the target, its cost is minimal over all walks,
  and each of its neighbours has a cost entry within its cost plus one. -/
def DInv (valves : ValveMap) (a b : ValveId) (S : List ValveId)
    (heap : List (Nat × ValveId)) (costs : List (ValveId × Nat)) : Prop :=
  (costs.map Prod.fst).Nodup ∧
  (∀ e ∈ costs, e.1 ∈ node_universe a valves ∧ e.1 ∈ valves.map Prod.fst ∧
    e.2 + 1 ≤ costs.length ∧ walkB valves e.2 a e.1 = true) ∧
  alookup costs a = some 0 ∧
  (∀ e ∈ heap, walkB valves e.1 a e.2 = true ∧
    ∃ cp, alookup costs e.2 = some cp ∧ cp ≤ e.1) ∧
  (∀ p cp, alookup costs p = some cp → p ∉ S → (cp, p) ∈ heap) ∧
  (∀ p ∈ S, p ≠ b ∧ ∃ cp, alookup costs p = some cp ∧
    (∀ m, walkB valves m a p = true → cp ≤ m) ∧
    ∀ q ∈ tunnels_of valves p, ∃ cq, alookup costs q = some cq ∧ cq ≤ cp + 1)

/-! ## Association-list lemmas -/

theorem alookup_isSome_of_mem_keys {α β : Type} [DecidableEq α]
    {l : List (α × β)} {k : α} (h : k ∈ l.map Prod.fst) : (alookup l k).isSome := by
  induction l with
  | nil => simp at h
  | cons p l ih =>
    simp only [List.map_cons, List.mem_cons] at h
    by_cases hk : p.1 = k
    · simp [alookup, hk]
    · rcases h with h | h
      · exact absurd h.symm hk
      · simpa [alookup, hk] using ih h

theorem mem_of_alookup_eq_some {α β : Type} [DecidableEq α]
    {l : List (α × β)} {k : α} {v : β} (h : alookup l k = some v) : (k, v) ∈ l := by
  induction l with
  | nil => simp [alookup] at h
  | cons p l ih =>
    rcases p with ⟨a, b⟩
    by_cases hk : a = k
    · subst hk
      simp only [alookup, if_pos] at h
      injection h with h2
      subst h2
      exact List.mem_cons_self _ _
    · simp only [alookup, if_neg hk] at h
      exact List.mem_cons_of_mem _ (ih h)

theorem keys_of_alookup_eq_some {α β : Type} [DecidableEq α]
    {l : List (α × β)} {k : α} {v : β} (h : alookup l k = some v) :
    k ∈ l.map Prod.fst := by
  have := mem_of_alookup_eq_some h
  exact List.mem_map_of_mem Prod.fst this

theorem alookup_append_left {α β : Type} [DecidableEq α]
    {l : List (α × β)} (l2 : List (α × β)) {k : α}
    (h : (alookup l k).isSome) : alookup (l ++ l2) k = alookup l k := by
  induction l with
  | nil => simp [alookup] at h
  | cons p l ih =>
    by_cases hk : p.1 = k
    · simp [alookup, hk]
    · simp only [alookup, hk, if_neg, if_false] at h ⊢
      exact ih h

theorem alookup_append_right {α β : Type} [DecidableEq α]
    {l : List (α × β)} (l2 : List (α × β)) {k : α}
    (h : alookup l k = none) : alookup (l ++ l2) k = alookup l2 k := by
  induction l with
  | nil => simp [alookup]
  | cons p l ih =>
    by_cases hk : p.1 = k
    · simp [alookup, hk] at h
    · simp only [alookup, hk, if_neg, if_false] at h ⊢
      exact ih h

theorem alookup_assoc_set_self {α β : Type} [DecidableEq α]
    {l : List (α × β)} {k : α} (v : β) (h : (alookup l k).isSome) :
    alookup (assoc_set l k v) k = some v := by
  induction l with
  | nil => simp [alookup] at h
  | cons p l ih =>
    by_cases hk : p.1 = k
    · simp [assoc_set, hk, alookup]
    · simp only [alookup, hk, if_neg, if_false] at h
      simp only [assoc_set, hk, if_neg, if_false, alookup]
      simpa [alookup, hk] using ih h

theorem alookup_assoc_set_ne {α β : Type} [DecidableEq α]
    {l : List (α × β)} {k k2 : α} (v : β) (h : k2 ≠ k) :
    alookup (assoc_set l k v) k2 = alookup l k2 := by
  induction l with
  | nil => simp [assoc_set]
  | cons p l ih =>
    by_cases hk : p.1 = k
    · subst hk
      have hne : ¬ (p.1 = k2) := fun hh => h hh.symm
      simp [assoc_set, alookup, hne]
    · simp only [assoc_set, if_neg hk, alookup]
      by_cases hk2 : p.1 = k2
      · simp [hk2]
      · simp [hk2, ih]

theorem alookup_assoc_set_isSome {α β : Type} [DecidableEq α]
    {l : List (α × β)} {k k2 : α} (v : β) (h : (alookup l k2).isSome) :
    (alookup (assoc_set l k v) k2).isSome := by
  by_cases hk : k2 = k
  · subst hk
    rw [alookup_assoc_set_self v h]
    rfl
  · rwa [alookup_assoc_set_ne v hk]

theorem assoc_set_keys {α β : Type} [DecidableEq α]
    (l : List (α × β)) (k : α) (v : β) :
    (assoc_set l k v).map Prod.fst = l.map Prod.fst := by
  induction l with
  | nil => simp [assoc_set]
  | cons p l ih =>
    by_cases hk : p.1 = k
    · simp [assoc_set, hk]
    · simp [assoc_set, hk, ih]

theorem assoc_set_length {α β : Type} [DecidableEq α]
    (l : List (α × β)) (k : α) (v : β) :
    (assoc_set l k v).length = l.length := by
  induction l with
  | nil => rfl
  | cons p l ih =>
    by_cases hk : p.1 = k
    · simp [assoc_set, hk]
    · simp [assoc_set, hk, ih]

theorem mem_assoc_set {α β : Type} [DecidableEq α]
    {l : List (α × β)} {k : α} {v : β} {e : α × β} (h : e ∈ assoc_set l k v) :
    e ∈ l ∨ e = (k, v) := by
  induction l with
  | nil => simp [assoc_set] at h
  | cons p l ih =>
    by_cases hk : p.1 = k
    · simp only [assoc_set, hk, if_pos, List.mem_cons] at h
      rcases h with h | h
      · right; exact h
      · left; exact List.mem_cons_of_mem _ h
    · simp only [assoc_set, hk, if_neg, if_false, List.mem_cons] at h
      rcases h with h | h
      · left; exact h ▸ List.mem_cons_self _ _
      · rcases ih h with h2 | h2
        · left; exact List.mem_cons_of_mem _ h2
        · right; exact h2

/-! ## Heap-pop, `map_opt` and `not_visited` lemmas -/

theorem pop_max_cons_isSome (a : State × Nat) (l : List (State × Nat)) :
    (pop_max (a :: l)).isSome := by
  simp only [pop_max]
  cases pop_max l with
  | none => rfl
  | some p =>
    rcases p with ⟨m, r⟩
    by_cases hc : a.1.score < m.1.score ∨ (a.1.score = m.1.score ∧ a.2 < m.2)
    · simp [hc]
    · simp [hc]

theorem pop_min_cons_isSome (a : Nat × ValveId) (l : List (Nat × ValveId)) :
    (pop_min (a :: l)).isSome := by
  simp only [pop_min]
  cases pop_min l with
  | none => rfl
  | some p =>
    rcases p with ⟨m, r⟩
    by_cases hc : m.1 < a.1
    · simp [hc]
    · simp [hc]

theorem pop_max_cons_eq (a : State × Nat) (l : List (State × Nat)) :
    pop_max (a :: l) = match pop_max l with
      | none => some (a, [])
      | some (m, rest2) =>
        if a.1.score < m.1.score ∨ (a.1.score = m.1.score ∧ a.2 < m.2) then
          some (m, a :: rest2)
        else some (a, l) := rfl

theorem pop_min_cons_eq (a : Nat × ValveId) (l : List (Nat × ValveId)) :
    pop_min (a :: l) = match pop_min l with
      | none => some (a, [])
      | some (m, rest2) =>
        if m.1 < a.1 then some (m, a :: rest2) else some (a, l) := rfl

theorem pop_max_perm :
    ∀ {heap e rest}, pop_max heap = some (e, rest) → heap.Perm (e :: rest)
  | [], _, _, h => by simp [pop_max] at h
  | a :: l, e, rest, h => by
    cases l with
    | nil =>
      simp only [pop_max] at h
      injection h with h2
      injection h2 with h3 h4
      subst h3; subst h4
      exact List.Perm.refl _
    | cons b m =>
      obtain ⟨⟨mx, rest2⟩, hl⟩ := Option.isSome_iff_exists.1 (pop_max_cons_isSome b m)
      have hperm : (b :: m).Perm (mx :: rest2) := pop_max_perm hl
      rw [pop_max_cons_eq, hl] at h
      dsimp only at h
      by_cases hcmp : a.1.score < mx.1.score ∨ (a.1.score = mx.1.score ∧ a.2 < mx.2)
      · rw [if_pos hcmp] at h
        injection h with h2
        injection h2 with h3 h4
        subst h3; subst h4
        exact ((hperm.cons a).trans (List.Perm.swap mx a rest2))
      · rw [if_neg hcmp] at h
        injection h with h2
        injection h2 with h3 h4
        subst h3; subst h4
        exact List.Perm.refl _

theorem pop_min_perm :
    ∀ {heap e rest}, pop_min heap = some (e, rest) → heap.Perm (e :: rest)
  | [], _, _, h => by simp [pop_min] at h
  | a :: l, e, rest, h => by
    cases l with
    | nil =>
      simp only [pop_min] at h
      injection h with h2
      injection h2 with h3 h4
      subst h3; subst h4
      exact List.Perm.refl _
    | cons b m =>
      obtain ⟨⟨mx, rest2⟩, hl⟩ := Option.isSome_iff_exists.1 (pop_min_cons_isSome b m)
      have hperm : (b :: m).Perm (mx :: rest2) := pop_min_perm hl
      rw [pop_min_cons_eq, hl] at h
      dsimp only at h
      by_cases hcmp : mx.1 < a.1
      · rw [if_pos hcmp] at h
        injection h with h2
        injection h2 with h3 h4
        subst h3; subst h4
        exact ((hperm.cons a).trans (List.Perm.swap mx a rest2))
      · rw [if_neg hcmp] at h
        injection h with h2
        injection h2 with h3 h4
        subst h3; subst h4
        exact List.Perm.refl _

theorem map_opt_isSome {α β : Type} {f : α → Option β} :
    ∀ {l : List α}, (∀ a ∈ l, (f a).isSome) → (map_opt f l).isSome
  | [], _ => by simp [map_opt]
  | a :: l, h => by
    have ha := h a (List.mem_cons_self _ _)
    cases hfa : f a with
    | none => rw [hfa] at ha; simp at ha
    | some b =>
      have ih := map_opt_isSome (fun x hx => h x (List.mem_cons_of_mem _ hx))
      cases hml : map_opt f l with
      | none => rw [hml] at ih; simp at ih
      | some bs => simp [map_opt, hfa, hml]

theorem map_opt_eq_map {α β : Type} {f : α → Option β} {g : α → β} :
    ∀ {l : List α}, (∀ a ∈ l, f a = some (g a)) → map_opt f l = some (l.map g)
  | [], _ => by simp [map_opt]
  | a :: l, h => by
    have ih := map_opt_eq_map (fun x hx => h x (List.mem_cons_of_mem _ hx))
    simp [map_opt, h a (List.mem_cons_self _ _), ih]

theorem mem_not_visited_iff {s : State} {valves : ValveMap} {v : ValveId} :
    v ∈ s.not_visited valves ↔
      (∃ valve, (v, valve) ∈ valves ∧ valve.flow_rate > 0) ∧ v ∉ s.visited := by
  simp only [State.not_visited, List.mem_filterMap]
  constructor
  · rintro ⟨⟨k, valve⟩, hmem, hcond⟩
    by_cases hc : valve.flow_rate > 0 ∧ k ∉ s.visited
    · rw [if_pos hc] at hcond
      injection hcond with h2
      subst h2
      exact ⟨⟨valve, hmem, hc.1⟩, hc.2⟩
    · rw [if_neg hc] at hcond; cases hcond
  · rintro ⟨⟨valve, hmem, hflow⟩, hnv⟩
    exact ⟨(v, valve), hmem, by rw [if_pos ⟨hflow, hnv⟩]⟩

theorem mem_positive_ids_iff {valves : ValveMap} {v : ValveId} :
    v ∈ positive_ids valves ↔ ∃ valve, (v, valve) ∈ valves ∧ valve.flow_rate > 0 := by
  simp only [positive_ids, List.mem_filterMap]
  constructor
  · rintro ⟨⟨k, valve⟩, hmem, hcond⟩
    by_cases hc : valve.flow_rate > 0
    · rw [if_pos hc] at hcond
      injection hcond with h2
      subst h2
      exact ⟨valve, hmem, hc⟩
    · rw [if_neg hc] at hcond; cases hcond
  · rintro ⟨valve, hmem, hflow⟩
    exact ⟨(v, valve), hmem, by rw [if_pos hflow]⟩

theorem not_visited_sub_positive {s : State} {valves : ValveMap} {v : ValveId}
    (h : v ∈ s.not_visited valves) : v ∈ positive_ids valves :=
  mem_positive_ids_iff.2 (mem_not_visited_iff.1 h).1

theorem not_visited_sub_keys {s : State} {valves : ValveMap} {v : ValveId}
    (h : v ∈ s.not_visited valves) : v ∈ valves.map Prod.fst := by
  rcases (mem_not_visited_iff.1 h).1 with ⟨valve, hmem, _⟩
  exact List.mem_map_of_mem Prod.fst hmem

theorem not_visited_not_visited {s : State} {valves : ValveMap} {v : ValveId}
    (h : v ∈ s.not_visited valves) : v ∉ s.visited :=
  (mem_not_visited_iff.1 h).2

theorem not_visited_length_le (s : State) (valves : ValveMap) :
    (s.not_visited valves).length ≤ (positive_ids valves).length := by
  induction valves with
  | nil => simp [State.not_visited, positive_ids]
  | cons p l ih =>
    simp only [State.not_visited, positive_ids, List.filterMap_cons] at ih ⊢
    by_cases hc : p.2.flow_rate > 0 ∧ p.1 ∉ s.visited
    · rw [if_pos hc, if_pos hc.1]
      simpa using ih
    · rw [if_neg hc]
      by_cases hf : p.2.flow_rate > 0
      · rw [if_pos hf]
        exact Nat.le_succ_of_le ih
      · rw [if_neg hf]
        exact ih

theorem filter_length_le_of_imp {α : Type} {p q : α → Bool}
    (l : List α) (h : ∀ a ∈ l, p a = true → q a = true) :
    (l.filter p).length ≤ (l.filter q).length := by
  induction l with
  | nil => simp
  | cons a l ih =>
    have ih2 := ih (fun x hx => h x (List.mem_cons_of_mem _ hx))
    by_cases hp : p a = true
    · rw [List.filter_cons_of_pos hp, List.filter_cons_of_pos (h a (List.mem_cons_self _ _) hp)]
      simpa using ih2
    · rw [List.filter_cons_of_neg (by simpa using hp)]
      by_cases hq : q a = true
      · rw [List.filter_cons_of_pos hq]
        exact Nat.le_succ_of_le ih2
      · rw [List.filter_cons_of_neg (by simpa using hq)]
        exact ih2

theorem filter_length_lt_of_imp {α : Type} {p q : α → Bool} {l : List α} (b : α)
    (h : ∀ a ∈ l, p a = true → q a = true)
    (hb : b ∈ l) (hqb : q b = true) (hpb : p b ≠ true) :
    (l.filter p).length < (l.filter q).length := by
  induction l with
  | nil => cases hb
  | cons a l ih =>
    have hrest : ∀ x ∈ l, p x = true → q x = true :=
      fun x hx => h x (List.mem_cons_of_mem _ hx)
    rcases List.mem_cons.1 hb with hba | hbl
    · subst hba
      rw [List.filter_cons_of_neg (by simpa using hpb), List.filter_cons_of_pos hqb]
      exact Nat.lt_succ_of_le (filter_length_le_of_imp l hrest)
    · by_cases hp : p a = true
      · rw [List.filter_cons_of_pos hp, List.filter_cons_of_pos (h a (List.mem_cons_self _ _) hp)]
        simpa using ih hrest hbl
      · rw [List.filter_cons_of_neg (by simpa using hp)]
        by_cases hq : q a = true
        · rw [List.filter_cons_of_pos hq]
          exact Nat.lt_succ_of_le (Nat.le_of_lt (ih hrest hbl))
        · rw [List.filter_cons_of_neg (by simpa using hq)]
          exact ih hrest hbl

/-! ## Transition-generation lemmas -/

theorem mem_insertionSort {α : Type} (r : α → α → Prop) [DecidableRel r]
    {l : List α} {a : α} : a ∈ List.insertionSort r l ↔ a ∈ l :=
  (List.perm_insertionSort r l).mem_iff

theorem gen_transition_some_shape {s : State} {valves : ValveMap} {dists : DistTable}
    {i : Nat} {v : ValveId} {e : State × Nat}
    (h : gen_transition s valves dists i v = some (some e)) :
    ∃ d valve, alookup dists (s.current_pos.getD i 0, v) = some d ∧
      s.time.getD i 0 > d ∧ alookup valves v = some valve ∧
      e = ({ current_pos := s.current_pos.set i v
             visited := List.insertionSort (· ≤ ·) (s.visited ++ [v])
             time := s.time.set i (s.time.getD i 0 - (d + 1))
             score := s.score },
           valve.flow_rate * (s.time.getD i 0 - (d + 1))) := by
  unfold gen_transition at h
  cases hd : alookup dists (s.current_pos.getD i 0, v) with
  | none => rw [hd] at h; cases h
  | some d =>
    rw [hd] at h
    dsimp only at h
    by_cases ht : s.time.getD i 0 > d
    · rw [if_pos ht] at h
      cases hv : alookup valves v with
      | none => rw [hv] at h; cases h
      | some valve =>
        rw [hv] at h
        dsimp only at h
        injection h with h2
        injection h2 with h3
        exact ⟨d, valve, rfl, ht, rfl, h3.symm⟩
    · rw [if_neg ht] at h
      injection h with h2
      cases h2

theorem gen_transition_ne_none {s : State} {valves : ValveMap} {dists : DistTable}
    {i : Nat} {v : ValveId}
    (hd : (alookup dists (s.current_pos.getD i 0, v)).isSome)
    (hv : v ∈ valves.map Prod.fst) :
    gen_transition s valves dists i v ≠ none := by
  unfold gen_transition
  cases hdd : alookup dists (s.current_pos.getD i 0, v) with
  | none => rw [hdd] at hd; cases hd
  | some d =>
    dsimp only
    by_cases ht : s.time.getD i 0 > d
    · rw [if_pos ht]
      cases hvv : alookup valves v with
      | none =>
        have := alookup_isSome_of_mem_keys hv
        rw [hvv] at this; cases this
      | some valve => simp
    · rw [if_neg ht]; simp

theorem transitions_for_eq {s : State} {valves : ValveMap} {dists : DistTable} :
    ∀ {pairs : List (Nat × ValveId)},
      (∀ p ∈ pairs, gen_transition s valves dists p.1 p.2 ≠ none) →
      transitions_for s valves dists pairs =
        some (pairs.filterMap (fun p => (gen_transition s valves dists p.1 p.2).join))
  | [], _ => rfl
  | p :: rest, h => by
    have hg := h p (List.mem_cons_self _ _)
    have ih := transitions_for_eq (fun x hx => h x (List.mem_cons_of_mem _ hx))
    cases hgp : gen_transition s valves dists p.1 p.2 with
    | none => exact absurd hgp hg
    | some o =>
      cases o with
      | none => simp [transitions_for, hgp, ih, List.filterMap_cons, Option.join]
      | some e => simp [transitions_for, hgp, ih, List.filterMap_cons, Option.join]

theorem transitions_for_mem {s : State} {valves : ValveMap} {dists : DistTable} :
    ∀ {pairs : List (Nat × ValveId)} {l : List (State × Nat)} {e : State × Nat},
      transitions_for s valves dists pairs = some l → e ∈ l →
      ∃ p ∈ pairs, gen_transition s valves dists p.1 p.2 = some (some e)
  | [], l, e, hl, he => by
    injection hl with h2
    subst h2
    cases he
  | p :: rest, l, e, hl, he => by
    simp only [transitions_for] at hl
    cases hgp : gen_transition s valves dists p.1 p.2 with
    | none => rw [hgp] at hl; cases hl
    | some o =>
      rw [hgp] at hl
      cases o with
      | none =>
        dsimp only at hl
        obtain ⟨q, hq, hgq⟩ := transitions_for_mem hl he
        exact ⟨q, List.mem_cons_of_mem _ hq, hgq⟩
      | some e2 =>
        dsimp only at hl
        cases hrest : transitions_for s valves dists rest with
        | none => rw [hrest] at hl; cases hl
        | some l2 =>
          rw [hrest] at hl
          injection hl with h2
          subst h2
          rcases List.mem_cons.1 he with he2 | he2
          · subst he2
            exact ⟨p, List.mem_cons_self _ _, hgp⟩
          · obtain ⟨q, hq, hgq⟩ := transitions_for_mem hrest he2
            exact ⟨q, List.mem_cons_of_mem _ hq, hgq⟩

theorem transitions_for_length {s : State} {valves : ValveMap} {dists : DistTable} :
    ∀ {pairs : List (Nat × ValveId)} {l : List (State × Nat)},
      transitions_for s valves dists pairs = some l → l.length ≤ pairs.length
  | [], l, hl => by
    injection hl with h2
    subst h2
    simp
  | p :: rest, l, hl => by
    simp only [transitions_for] at hl
    cases hgp : gen_transition s valves dists p.1 p.2 with
    | none => rw [hgp] at hl; cases hl
    | some o =>
      rw [hgp] at hl
      cases o with
      | none =>
        dsimp only at hl
        exact Nat.le_succ_of_le (transitions_for_length hl)
      | some e2 =>
        dsimp only at hl
        cases hrest : transitions_for s valves dists rest with
        | none => rw [hrest] at hl; cases hl
        | some l2 =>
          rw [hrest] at hl
          injection hl with h2
          subst h2
          simpa using transitions_for_length hrest

theorem next_states_mem {N : Nat} {s : State} {valves : ValveMap} {dists : DistTable}
    {l : List (State × Nat)} {e : State × Nat}
    (hl : State.next_states N s valves dists = some l) (he : e ∈ l) :
    ∃ i v d valve, i < N ∧ v ∈ s.not_visited valves ∧
      alookup dists (s.current_pos.getD i 0, v) = some d ∧
      s.time.getD i 0 > d ∧ alookup valves v = some valve ∧
      e = ({ current_pos := s.current_pos.set i v
             visited := List.insertionSort (· ≤ ·) (s.visited ++ [v])
             time := s.time.set i (s.time.getD i 0 - (d + 1))
             score := s.score },
           valve.flow_rate * (s.time.getD i 0 - (d + 1))) := by
  obtain ⟨p, hp, hgen⟩ := transitions_for_mem hl he
  obtain ⟨hi, hv⟩ := List.mem_product.1 hp
  obtain ⟨d, valve, hd, ht, hval, hshape⟩ := gen_transition_some_shape hgen
  exact ⟨p.1, p.2, d, valve, List.mem_range.1 hi, hv, hd, ht, hval, hshape⟩

theorem next_states_length {N : Nat} {s : State} {valves : ValveMap} {dists : DistTable}
    {l : List (State × Nat)} (hl : State.next_states N s valves dists = some l) :
    l.length ≤ N * (positive_ids valves).length := by
  have h1 := transitions_for_length hl
  have h2 : ((List.range N).product (s.not_visited valves)).length =
      N * (s.not_visited valves).length := by
    have h3 := List.length_product (List.range N) (s.not_visited valves)
    simpa using h3
  calc l.length ≤ ((List.range N).product (s.not_visited valves)).length := h1
    _ = N * (s.not_visited valves).length := h2
    _ ≤ N * (positive_ids valves).length :=
        Nat.mul_le_mul_left N (not_visited_length_le s valves)

/-! ## `potential_score` lemmas -/

theorem map_zip_eq_zipWith {α β γ : Type} (f : α × β → γ) :
    ∀ (l1 : List α) (l2 : List β),
      (l1.zip l2).map f = List.zipWith (fun a b => f (a, b)) l1 l2
  | [], _ => by simp
  | _ :: _, [] => by simp
  | a :: l1, b :: l2 => by simp [map_zip_eq_zipWith f l1 l2]

theorem agent_potential_eq (s : State) (valves : ValveMap) (i : Nat) :
    agent_potential s valves i = some (agent_potential_by_id s valves i) := by
  unfold agent_potential agent_potential_by_id
  have hmap : map_opt
      (fun tv => (alookup valves tv.2).map (fun valve => tv.1 * valve.flow_rate))
      ((time_slots (s.time.getD i 0)).zip
        (List.insertionSort (· ≥ ·) (s.not_visited valves))) =
      some ((((time_slots (s.time.getD i 0)).zip
        (List.insertionSort (· ≥ ·) (s.not_visited valves))).map
          (fun tv => tv.1 * flow_of valves tv.2))) := by
    apply map_opt_eq_map
    intro tv htv
    have hsnd : tv.2 ∈ List.insertionSort (· ≥ ·) (s.not_visited valves) :=
      (List.of_mem_zip htv).2
    have hmem : tv.2 ∈ s.not_visited valves := (mem_insertionSort _).1 hsnd
    have hkeys := not_visited_sub_keys hmem
    cases hv : alookup valves tv.2 with
    | none =>
      have := alookup_isSome_of_mem_keys hkeys
      rw [hv] at this; cases this
    | some valve => simp [flow_of, hv]
  rw [hmap, map_zip_eq_zipWith]
  rfl

theorem potential_score_eq (N : Nat) (s : State) (valves : ValveMap) :
    State.potential_score N s valves = some (potential_by_id N s valves) := by
  unfold State.potential_score potential_by_id
  rw [@map_opt_eq_map _ _ _ (agent_potential_by_id s valves) _
    (fun i _ => agent_potential_eq s valves i)]
  rfl

theorem potential_score_isSome (N : Nat) (s : State) (valves : ValveMap) :
    (State.potential_score N s valves).isSome := by
  rw [potential_score_eq]; rfl

/-! ## Search-loop termination machinery -/

theorem next_states_isSome {N : Nat} {s : State} {valves : ValveMap} {dists : DistTable}
    (hok : StateOk N valves s) (hcomp : DistComplete valves dists) :
    (State.next_states N s valves dists).isSome := by
  rw [State.next_states, transitions_for_eq]
  · rfl
  · intro p hp
    obtain ⟨hi, hv⟩ := List.mem_product.1 hp
    have hiN : p.1 < N := List.mem_range.1 hi
    apply gen_transition_ne_none
    · have hlen : p.1 < s.current_pos.length := hok.1 ▸ hiN
      have hpos : s.current_pos.getD p.1 0 ∈ s.current_pos := by
        rw [List.getD_eq_getElem s.current_pos 0 hlen]
        exact s.current_pos.getElem_mem hlen
      exact hcomp _ (hok.2.2 _ hpos) _ (not_visited_sub_positive hv)
    · exact not_visited_sub_keys hv

theorem mem_visited_child {s : State} {v x : ValveId} :
    x ∈ List.insertionSort (· ≤ ·) (s.visited ++ [v]) ↔ x ∈ s.visited ∨ x = v := by
  rw [mem_insertionSort]
  simp

theorem sdepth_child_lt {N : Nat} {s : State} {valves : ValveMap} {dists : DistTable}
    {l : List (State × Nat)} {e : State × Nat}
    (hl : State.next_states N s valves dists = some l) (he : e ∈ l) :
    sdepth valves e.1 < sdepth valves s := by
  obtain ⟨i, v, d, valve, _, hv, _, _, _, hshape⟩ := next_states_mem hl he
  have hvp : v ∈ positive_ids valves := not_visited_sub_positive hv
  have hvnv : v ∉ s.visited := not_visited_not_visited hv
  unfold sdepth
  apply filter_length_lt_of_imp v
  · intro x _ hx
    subst hshape
    simp only [decide_eq_true_eq] at hx ⊢
    intro hxs
    exact hx (mem_visited_child.2 (Or.inl hxs))
  · exact hvp
  · simpa using hvnv
  · subst hshape
    simp [mem_visited_child]

theorem StateOk_child {N : Nat} {s : State} {valves : ValveMap} {dists : DistTable}
    {l : List (State × Nat)} {e : State × Nat}
    (hok : StateOk N valves s)
    (hl : State.next_states N s valves dists = some l) (he : e ∈ l) :
    StateOk N valves e.1 := by
  obtain ⟨i, v, d, valve, _, hv, _, _, _, hshape⟩ := next_states_mem hl he
  subst hshape
  refine ⟨by simpa using hok.1, by simpa using hok.2.1, ?_⟩
  intro p hp
  rcases List.mem_or_eq_of_mem_set hp with hmem | hpv
  · exact hok.2.2 p hmem
  · subst hpv
    exact List.mem_cons_of_mem _ (not_visited_sub_positive hv)

theorem score_child {N : Nat} {s : State} {valves : ValveMap} {dists : DistTable}
    {l : List (State × Nat)} {e : State × Nat}
    (hl : State.next_states N s valves dists = some l) (he : e ∈ l) :
    e.1.score = s.score := by
  obtain ⟨i, v, d, valve, _, _, _, _, _, hshape⟩ := next_states_mem hl he
  subst hshape
  rfl

theorem push_children_cons_eq (N score ms : Nat) (valves : ValveMap)
    (ns : State) (inc : Nat) (rest scores heap : List (State × Nat)) :
    push_children N score ms valves ((ns, inc) :: rest) scores heap =
      match State.potential_score N ns valves with
      | none => none
      | some potential =>
        if score + inc + potential > ms then
          let scores1 := match alookup scores ns with
            | some _ => scores
            | none => scores ++ [(ns, 0)]
          if score + inc > (alookup scores1 ns).getD 0 then
            push_children N score ms valves rest
              (assoc_set scores1 ns (score + inc)) (heap ++ [(ns, score + inc)])
          else push_children N score ms valves rest scores1 heap
        else push_children N score ms valves rest scores heap := rfl

theorem sphi_append (N : Nat) (valves : ValveMap) (h1 h2 : List (State × Nat)) :
    sphi N valves (h1 ++ h2) = sphi N valves h1 + sphi N valves h2 := by
  unfold sphi
  rw [List.map_append, List.sum_append]

theorem push_children_spec (N score ms : Nat) (valves : ValveMap) :
    ∀ (children scores heap : List (State × Nat)),
      ∃ scores2 heap2,
        push_children N score ms valves children scores heap = some (scores2, heap2) ∧
        (∀ k, (alookup scores k).isSome → (alookup scores2 k).isSome) ∧
        (∀ e ∈ heap2, e ∈ heap ∨
          ((∃ c ∈ children, e.1 = c.1) ∧ (alookup scores2 e.1).isSome)) ∧
        sphi N valves heap2 ≤ sphi N valves heap +
          (children.map
            (fun c => (N * (positive_ids valves).length + 1) ^ sdepth valves c.1)).sum
  | [], scores, heap =>
    ⟨scores, heap, rfl, fun _ h => h, fun e he => Or.inl he, by simp [push_children]⟩
  | (ns, inc) :: rest, scores, heap => by
    have hpot := potential_score_isSome N ns valves
    cases hp : State.potential_score N ns valves with
    | none => rw [hp] at hpot; cases hpot
    | some potential =>
      rw [push_children_cons_eq]
      rw [hp]
      dsimp only
      by_cases hgt : score + inc + potential > ms
      · rw [if_pos hgt]
        cases halo : alookup scores ns with
        | some prev0 =>
          dsimp only
          by_cases hprev : score + inc > (alookup scores ns).getD 0
          · rw [if_pos hprev]
            obtain ⟨scores2, heap2, hpc, hmono, hmem, hphi⟩ :=
              push_children_spec N score ms valves rest
                (assoc_set scores ns (score + inc)) (heap ++ [(ns, score + inc)])
            refine ⟨scores2, heap2, hpc, ?_, ?_, ?_⟩
            · intro k hk
              exact hmono k (alookup_assoc_set_isSome _ hk)
            · intro e he
              rcases hmem e he with hh | ⟨⟨c, hc, hec⟩, hsome⟩
              · rcases List.mem_append.1 hh with hh2 | hh2
                · exact Or.inl hh2
                · refine Or.inr ⟨⟨(ns, inc), List.mem_cons_self _ _, ?_⟩, ?_⟩
                  · rcases List.mem_singleton.1 hh2 with rfl
                    rfl
                  · rcases List.mem_singleton.1 hh2 with rfl
                    apply hmono
                    rw [alookup_assoc_set_self]
                    · rfl
                    · rw [halo]; rfl
              · exact Or.inr ⟨⟨c, List.mem_cons_of_mem _ hc, hec⟩, hsome⟩
            · rw [sphi_append] at hphi
              calc sphi N valves heap2 ≤ sphi N valves heap +
                    sphi N valves [(ns, score + inc)] +
                    (rest.map (fun c =>
                      (N * (positive_ids valves).length + 1) ^ sdepth valves c.1)).sum := hphi
                _ = sphi N valves heap + (((ns, inc) :: rest).map (fun c =>
                      (N * (positive_ids valves).length + 1) ^ sdepth valves c.1)).sum := by
                    simp [sphi, List.map_cons, List.sum_cons]
                    ring
          · rw [if_neg hprev]
            obtain ⟨scores2, heap2, hpc, hmono, hmem, hphi⟩ :=
              push_children_spec N score ms valves rest scores heap
            refine ⟨scores2, heap2, hpc, hmono, ?_, ?_⟩
            · intro e he
              rcases hmem e he with hh | ⟨⟨c, hc, hec⟩, hsome⟩
              · exact Or.inl hh
              · exact Or.inr ⟨⟨c, List.mem_cons_of_mem _ hc, hec⟩, hsome⟩
            · calc sphi N valves heap2 ≤ sphi N valves heap + (rest.map (fun c =>
                    (N * (positive_ids valves).length + 1) ^ sdepth valves c.1)).sum := hphi
                _ ≤ sphi N valves heap + (((ns, inc) :: rest).map (fun c =>
                    (N * (positive_ids valves).length + 1) ^ sdepth valves c.1)).sum := by
                  simp only [List.map_cons, List.sum_cons]
                  omega
        | none =>
          dsimp only
          by_cases hprev : score + inc > (alookup (scores ++ [(ns, 0)]) ns).getD 0
          · rw [if_pos hprev]
            obtain ⟨scores2, heap2, hpc, hmono, hmem, hphi⟩ :=
              push_children_spec N score ms valves rest
                (assoc_set (scores ++ [(ns, 0)]) ns (score + inc))
                (heap ++ [(ns, score + inc)])
            refine ⟨scores2, heap2, hpc, ?_, ?_, ?_⟩
            · intro k hk
              apply hmono
              apply alookup_assoc_set_isSome
              rw [alookup_append_left _ hk]
              exact hk
            · intro e he
              rcases hmem e he with hh | ⟨⟨c, hc, hec⟩, hsome⟩
              · rcases List.mem_append.1 hh with hh2 | hh2
                · exact Or.inl hh2
                · refine Or.inr ⟨⟨(ns, inc), List.mem_cons_self _ _, ?_⟩, ?_⟩
                  · rcases List.mem_singleton.1 hh2 with rfl
                    rfl
                  · rcases List.mem_singleton.1 hh2 with rfl
                    apply hmono
                    rw [alookup_assoc_set_self]
                    · rfl
                    · rw [alookup_append_right _ halo]
                      simp [alookup]
              · exact Or.inr ⟨⟨c, List.mem_cons_of_mem _ hc, hec⟩, hsome⟩
            · rw [sphi_append] at hphi
              calc sphi N valves heap2 ≤ sphi N valves heap +
                    sphi N valves [(ns, score + inc)] +
                    (rest.map (fun c =>
                      (N * (positive_ids valves).length + 1) ^ sdepth valves c.1)).sum := hphi
                _ = sphi N valves heap + (((ns, inc) :: rest).map (fun c =>
                      (N * (positive_ids valves).length + 1) ^ sdepth valves c.1)).sum := by
                    simp [sphi, List.map_cons, List.sum_cons]
                    ring
          · rw [if_neg hprev]
            obtain ⟨scores2, heap2, hpc, hmono, hmem, hphi⟩ :=
              push_children_spec N score ms valves rest (scores ++ [(ns, 0)]) heap
            refine ⟨scores2, heap2, hpc, ?_, ?_, ?_⟩
            · intro k hk
              apply hmono
              rw [alookup_append_left _ hk]
              exact hk
            · intro e he
              rcases hmem e he with hh | ⟨⟨c, hc, hec⟩, hsome⟩
              · exact Or.inl hh
              · exact Or.inr ⟨⟨c, List.mem_cons_of_mem _ hc, hec⟩, hsome⟩
            · calc sphi N valves heap2 ≤ sphi N valves heap + (rest.map (fun c =>
                    (N * (positive_ids valves).length + 1) ^ sdepth valves c.1)).sum := hphi
                _ ≤ sphi N valves heap + (((ns, inc) :: rest).map (fun c =>
                    (N * (positive_ids valves).length + 1) ^ sdepth valves c.1)).sum := by
                  simp only [List.map_cons, List.sum_cons]
                  omega
      · rw [if_neg hgt]
        obtain ⟨scores2, heap2, hpc, hmono, hmem, hphi⟩ :=
          push_children_spec N score ms valves rest scores heap
        refine ⟨scores2, heap2, hpc, hmono, ?_, ?_⟩
        · intro e he
          rcases hmem e he with hh | ⟨⟨c, hc, hec⟩, hsome⟩
          · exact Or.inl hh
          · exact Or.inr ⟨⟨c, List.mem_cons_of_mem _ hc, hec⟩, hsome⟩
        · calc sphi N valves heap2 ≤ sphi N valves heap + (rest.map (fun c =>
                (N * (positive_ids valves).length + 1) ^ sdepth valves c.1)).sum := hphi
            _ ≤ sphi N valves heap + (((ns, inc) :: rest).map (fun c =>
                (N * (positive_ids valves).length + 1) ^ sdepth valves c.1)).sum := by
              simp only [List.map_cons, List.sum_cons]
              omega

theorem search_loop_succ_eq (N : Nat) (valves : ValveMap) (dists : DistTable)
    (fuel : Nat) (heap scores : List (State × Nat)) (ms : Nat) :
    search_loop N valves dists (fuel + 1) heap scores ms =
      match pop_max heap with
      | none => some ms
      | some ((state, score), rest) =>
        match alookup scores state with
        | none => none
        | some best =>
          if score < best then search_loop N valves dists fuel rest scores ms
          else
            match State.next_states N state valves dists with
            | none => none
            | some children =>
              match push_children N score (max ms score) valves children scores rest with
              | none => none
              | some (scores1, heap1) =>
                search_loop N valves dists fuel heap1 scores1 (max ms score) := rfl

theorem children_sum_lt {N : Nat} {state : State} {valves : ValveMap} {dists : DistTable}
    {children : List (State × Nat)}
    (hnse : State.next_states N state valves dists = some children) :
    (children.map
      (fun c => (N * (positive_ids valves).length + 1) ^ sdepth valves c.1)).sum <
    (N * (positive_ids valves).length + 1) ^ sdepth valves state := by
  set C := N * (positive_ids valves).length with hC
  have hpos : 0 < (C + 1) ^ sdepth valves state := pow_pos (Nat.succ_pos C) _
  cases children with
  | nil => simp only [List.map_nil, List.sum_nil]; exact hpos
  | cons c0 cs =>
    have hd0 : 0 < sdepth valves state :=
      Nat.lt_of_le_of_lt (Nat.zero_le _) (sdepth_child_lt hnse (List.mem_cons_self c0 cs))
    have hlen : (c0 :: cs).length ≤ C := next_states_length hnse
    have hC1 : 1 ≤ C := by
      have h4 := hlen
      simp only [List.length_cons] at h4
      omega
    have hbound : ∀ x ∈ (c0 :: cs).map
        (fun c => (C + 1) ^ sdepth valves c.1), x ≤ (C + 1) ^ (sdepth valves state - 1) := by
      intro x hx
      obtain ⟨c, hc, hcx⟩ := List.mem_map.1 hx
      subst hcx
      apply Nat.pow_le_pow_right (Nat.succ_pos C)
      have := sdepth_child_lt hnse hc
      omega
    calc ((c0 :: cs).map (fun c => (C + 1) ^ sdepth valves c.1)).sum
        ≤ ((c0 :: cs).map (fun c => (C + 1) ^ sdepth valves c.1)).length •
            ((C + 1) ^ (sdepth valves state - 1)) :=
          List.sum_le_card_nsmul _ _ hbound
      _ = (c0 :: cs).length * (C + 1) ^ (sdepth valves state - 1) := by
          simp [List.length_map]
      _ ≤ C * (C + 1) ^ (sdepth valves state - 1) :=
          Nat.mul_le_mul_right _ hlen
      _ < (C + 1) * (C + 1) ^ (sdepth valves state - 1) :=
          (Nat.mul_lt_mul_right (pow_pos (Nat.succ_pos C) _)).2 (Nat.lt_succ_self C)
      _ = (C + 1) ^ (sdepth valves state - 1 + 1) := by
          rw [pow_succ]
          ring
      _ = (C + 1) ^ sdepth valves state := by
          congr 1
          omega

theorem search_loop_isSome (N : Nat) (valves : ValveMap) (dists : DistTable)
    (hcomp : DistComplete valves dists) :
    ∀ (fuel : Nat) (heap scores : List (State × Nat)) (ms : Nat),
      sphi N valves heap < fuel →
      (∀ e ∈ heap, StateOk N valves e.1) →
      (∀ e ∈ heap, (alookup scores e.1).isSome) →
      (search_loop N valves dists fuel heap scores ms).isSome
  | 0, _, _, _, hfuel, _, _ => absurd hfuel (Nat.not_lt_zero _)
  | fuel + 1, heap, scores, ms, hfuel, hok, hsc => by
    cases hpop : pop_max heap with
    | none => rw [search_loop_succ_eq, hpop]; rfl
    | some pr =>
      rcases pr with ⟨⟨state, score⟩, rest⟩
      have hperm := pop_max_perm hpop
      have hstate_mem : (state, score) ∈ heap := hperm.mem_iff.2 (List.mem_cons_self _ _)
      have hsphi_eq : sphi N valves heap =
          (N * (positive_ids valves).length + 1) ^ sdepth valves state +
            sphi N valves rest := by
        unfold sphi
        rw [(hperm.map
          (fun e => (N * (positive_ids valves).length + 1) ^ sdepth valves e.1)).sum_eq]
        simp
      have hpotpos : 0 < (N * (positive_ids valves).length + 1) ^ sdepth valves state :=
        pow_pos (Nat.succ_pos _) _
      have hrest_lt : sphi N valves rest < sphi N valves heap := by omega
      have hrest_ok : ∀ e ∈ rest, StateOk N valves e.1 :=
        fun e he => hok e (hperm.mem_iff.2 (List.mem_cons_of_mem _ he))
      have hrest_sc : ∀ e ∈ rest, (alookup scores e.1).isSome :=
        fun e he => hsc e (hperm.mem_iff.2 (List.mem_cons_of_mem _ he))
      have hsome := hsc _ hstate_mem
      cases hlo : alookup scores state with
      | none => rw [hlo] at hsome; cases hsome
      | some best =>
        rw [search_loop_succ_eq, hpop]
        dsimp only
        rw [hlo]
        dsimp only
        by_cases hstale : score < best
        · rw [if_pos hstale]
          exact search_loop_isSome N valves dists hcomp fuel rest scores ms
            (by omega) hrest_ok hrest_sc
        · rw [if_neg hstale]
          have hok_state := hok _ hstate_mem
          have hns := next_states_isSome hok_state hcomp
          cases hnse : State.next_states N state valves dists with
          | none => rw [hnse] at hns; cases hns
          | some children =>
            dsimp only
            obtain ⟨scores2, heap2, hpc, hmono, hmem, hphi⟩ :=
              push_children_spec N score (max ms score) valves children scores rest
            rw [hpc]
            dsimp only
            apply search_loop_isSome N valves dists hcomp fuel heap2 scores2 (max ms score)
            · have hsum := children_sum_lt hnse
              have : sphi N valves heap2 < sphi N valves heap := by omega
              omega
            · intro e he
              rcases hmem e he with hh | ⟨⟨c, hc, hec⟩, _⟩
              · exact hrest_ok e hh
              · rw [hec]
                exact StateOk_child hok_state hnse hc
            · intro e he
              rcases hmem e he with hh | ⟨_, hsome2⟩
              · exact hmono _ (hrest_sc e hh)
              · exact hsome2

theorem getD_set_self_of_lt {l : List Nat} {i : Nat} (x : Nat) (h : i < l.length) :
    (l.set i x).getD i 0 = x := by
  rw [List.getD_eq_getElem?_getD, List.getElem?_set_eq_of_lt x h]
  rfl

theorem getD_set_ne {α : Type} [Inhabited α] {l : List α} {i j : Nat} (x : α)
    (h : j ≠ i) : (l.set i x).getD j default = l.getD j default := by
  rw [List.getD_eq_getElem?_getD, List.getElem?_set_ne (fun hh => h hh.symm),
    ← List.getD_eq_getElem?_getD]

theorem StateOk_new (N : Nat) (valves : ValveMap) (time : Nat) :
    StateOk N valves (State.new N start_id time) := by
  refine ⟨by simp [State.new], by simp [State.new], ?_⟩
  intro p hp
  simp only [State.new] at hp
  rw [List.eq_of_mem_replicate hp]
  exact List.mem_cons_self _ _

/-! ## Walk lemmas -/

theorem walkB_zero {valves : ValveMap} {a b : ValveId} :
    walkB valves 0 a b = true ↔ a = b := by
  simp [walkB]

theorem walkB_succ {valves : ValveMap} {n : Nat} {a b : ValveId} :
    walkB valves (n + 1) a b = true ↔
      ∃ c ∈ tunnels_of valves a, walkB valves n c b = true := by
  simp [walkB, List.any_eq_true]

theorem walk_extend {valves : ValveMap} :
    ∀ {n : Nat} {a c x : ValveId}, walkB valves n a c = true →
      x ∈ tunnels_of valves c → walkB valves (n + 1) a x = true
  | 0, a, c, x, h, hx => by
    rw [walkB_zero] at h
    subst h
    exact walkB_succ.2 ⟨x, hx, walkB_zero.2 rfl⟩
  | n + 1, a, c, x, h, hx => by
    obtain ⟨q, hq, hw⟩ := walkB_succ.1 h
    exact walkB_succ.2 ⟨q, hq, walk_extend hw hx⟩

theorem mem_tunnels_keys {valves : ValveMap} {a c : ValveId}
    (h : c ∈ tunnels_of valves a) : a ∈ valves.map Prod.fst := by
  unfold tunnels_of at h
  cases hl : alookup valves a with
  | none => rw [hl] at h; cases h
  | some v => exact keys_of_alookup_eq_some hl

theorem walk_rev {valves : ValveMap} (hsym : SymMap valves) :
    ∀ {n : Nat} {a b : ValveId}, walkB valves n a b = true → walkB valves n b a = true
  | 0, a, b, h => by
    rw [walkB_zero] at h
    exact walkB_zero.2 h.symm
  | n + 1, a, b, h => by
    obtain ⟨c, hc, hw⟩ := walkB_succ.1 h
    exact walk_extend (walk_rev hsym hw) (hsym a (mem_tunnels_keys hc) c hc)

theorem min_walk_unique {valves : ValveMap} {a b : ValveId} {r1 r2 : Option Nat}
    (hsym : SymMap valves)
    (h1 : IsMinWalk valves a b r1) (h2 : IsMinWalk valves b a r2) : r1 = r2 := by
  cases r1 with
  | none =>
    cases r2 with
    | none => rfl
    | some c2 => exact absurd (walk_rev hsym h2.1) (h1 c2)
  | some c1 =>
    cases r2 with
    | none => exact absurd (walk_rev hsym h1.1) (h2 c1)
    | some c2 =>
      have hle : c1 ≤ c2 := h1.2 c2 (walk_rev hsym h2.1)
      have hge : c2 ≤ c1 := h2.2 c1 (walk_rev hsym h1.1)
      rw [Nat.le_antisymm hle hge]

/-! ## Dijkstra auxiliary lemmas -/

theorem pop_min_le :
    ∀ {heap e rest}, pop_min heap = some (e, rest) → ∀ x ∈ heap, e.1 ≤ x.1
  | [], _, _, h => by simp [pop_min] at h
  | a :: l, e, rest, h => by
    cases l with
    | nil =>
      simp only [pop_min] at h
      injection h with h2
      injection h2 with h3 h4
      subst h3
      intro x hx
      rcases List.mem_singleton.1 hx with rfl
      exact Nat.le_refl _
    | cons b m =>
      obtain ⟨⟨mx, rest2⟩, hl⟩ := Option.isSome_iff_exists.1 (pop_min_cons_isSome b m)
      have hle := pop_min_le hl
      rw [pop_min_cons_eq, hl] at h
      dsimp only at h
      by_cases hcmp : mx.1 < a.1
      · rw [if_pos hcmp] at h
        injection h with h2
        injection h2 with h3 h4
        subst h3
        intro x hx
        rcases List.mem_cons.1 hx with rfl | hx2
        · exact Nat.le_of_lt hcmp
        · exact hle x hx2
      · rw [if_neg hcmp] at h
        injection h with h2
        injection h2 with h3 h4
        subst h3
        intro x hx
        rcases List.mem_cons.1 hx with rfl | hx2
        · exact Nat.le_refl _
        · exact Nat.le_trans (Nat.le_of_not_lt hcmp) (hle x hx2)

theorem sum_lt_pointwise {α : Type} {f g : α → Nat} :
    ∀ {l : List α} {x0 : α}, (∀ x ∈ l, f x ≤ g x) → x0 ∈ l → f x0 < g x0 →
      (l.map f).sum < (l.map g).sum
  | [], _, _, hx, _ => by cases hx
  | a :: l, x0, hle, hx, hlt => by
    have hrest : ∀ x ∈ l, f x ≤ g x := fun x h => hle x (List.mem_cons_of_mem _ h)
    rcases List.mem_cons.1 hx with rfl | hx2
    · have : (l.map f).sum ≤ (l.map g).sum :=
        List.sum_le_sum fun x h => hrest x h
      simp only [List.map_cons, List.sum_cons]
      omega
    · have hhead := hle a (List.mem_cons_self _ _)
      have := sum_lt_pointwise hrest hx2 hlt
      simp only [List.map_cons, List.sum_cons]
      omega

theorem nodup_subset_length {α : Type} [DecidableEq α] {l u : List α}
    (hn : l.Nodup) (hsub : ∀ x ∈ l, x ∈ u) : l.length ≤ u.length := by
  calc l.length = l.toFinset.card := (List.toFinset_card_of_nodup hn).symm
    _ ≤ u.toFinset.card :=
        Finset.card_le_card
          (fun x hx => List.mem_toFinset.2 (hsub x (List.mem_toFinset.1 hx)))
    _ ≤ u.length := u.toFinset_card_le

theorem alookup_eq_none_of_not_mem {α β : Type} [DecidableEq α]
    {l : List (α × β)} {k : α} (h : k ∉ l.map Prod.fst) : alookup l k = none := by
  cases hl : alookup l k with
  | none => rfl
  | some v => exact absurd (keys_of_alookup_eq_some hl) h

theorem dpot_congr {U : List ValveId} {costs costs2 : List (ValveId × Nat)}
    {p : ValveId} (h : alookup costs2 p = alookup costs p) :
    dpot U costs2 p = dpot U costs p := by
  unfold dpot
  rw [h]

theorem dpot_some {U : List ValveId} {costs : List (ValveId × Nat)} {p : ValveId}
    {c : Nat} (h : alookup costs p = some c) : dpot U costs p = c := by
  unfold dpot
  rw [h]

theorem dpot_none {U : List ValveId} {costs : List (ValveId × Nat)} {p : ValveId}
    (h : alookup costs p = none) : dpot U costs p = U.length + 1 := by
  unfold dpot
  rw [h]

theorem alookup_append_singleton_ne {α β : Type} [DecidableEq α]
    {l : List (α × β)} {n p : α} (x : β) (h : p ≠ n) :
    alookup (l ++ [(n, x)]) p = alookup l p := by
  cases hl : alookup l p with
  | some v => rw [alookup_append_left _ (by rw [hl]; rfl), hl]
  | none =>
    rw [alookup_append_right _ hl]
    have hne : ¬ (n = p) := fun hh => h hh.symm
    simp [alookup, hne]

theorem alookup_append_singleton_self {α β : Type} [DecidableEq α]
    {l : List (α × β)} {n : α} (x : β) (h : alookup l n = none) :
    alookup (l ++ [(n, x)]) n = some x := by
  rw [alookup_append_right _ h]
  simp [alookup]

theorem relax_all_cons_eq (cost : Nat) (n : ValveId) (rest : List ValveId)
    (costs : List (ValveId × Nat)) (heap : List (Nat × ValveId)) :
    relax_all cost (n :: rest) costs heap =
      match alookup costs n with
      | none => relax_all cost rest (costs ++ [(n, cost + 1)]) (heap ++ [(cost + 1, n)])
      | some c =>
        if cost + 1 < c then
          relax_all cost rest (assoc_set costs n (cost + 1)) (heap ++ [(cost + 1, n)])
        else relax_all cost rest costs heap := rfl

theorem relax_all_spec (valves : ValveMap) (a : ValveId) (cost : Nat) :
    ∀ (ts : List ValveId) (costs : List (ValveId × Nat)) (heap : List (Nat × ValveId)),
      (costs.map Prod.fst).Nodup →
      (∀ e ∈ costs, e.2 + 1 ≤ costs.length) →
      cost + 1 ≤ costs.length →
      cost + 1 ≤ (node_universe a valves).length →
      (∀ q ∈ ts, q ∈ node_universe a valves) →
      ∃ costs2 heap2,
        relax_all cost ts costs heap = (costs2, heap2) ∧
        (∃ pushed, heap2 = heap ++ pushed ∧ ∀ e ∈ pushed, e.1 = cost + 1 ∧ e.2 ∈ ts) ∧
        (∀ p, alookup costs2 p = alookup costs p ∨
          (p ∈ ts ∧ alookup costs2 p = some (cost + 1) ∧ (cost + 1, p) ∈ heap2 ∧
            ∀ c0, alookup costs p = some c0 → cost + 1 < c0)) ∧
        (∀ q ∈ ts, ∃ cq, alookup costs2 q = some cq ∧ cq ≤ cost + 1) ∧
        (costs2.map Prod.fst).Nodup ∧
        (∀ e ∈ costs2, e ∈ costs ∨ (e.1 ∈ ts ∧ e.2 = cost + 1)) ∧
        costs.length ≤ costs2.length ∧
        (∀ e ∈ costs2, e.2 + 1 ≤ costs2.length) ∧
        cost + 1 ≤ costs2.length ∧
        dphi (node_universe a valves) costs2 heap2 ≤
          dphi (node_universe a valves) costs heap
  | [], costs, heap, hnodup, hvb, hcb, _, _ =>
    ⟨costs, heap, rfl, ⟨[], by simp, by simp⟩, fun p => Or.inl rfl, by simp,
      hnodup, fun e he => Or.inl he, Nat.le_refl _, hvb, hcb, Nat.le_refl _⟩
  | n :: rest, costs, heap, hnodup, hvb, hcb, hcU, hts => by
    have hnU : n ∈ node_universe a valves := hts n (List.mem_cons_self _ _)
    have hrestU : ∀ q ∈ rest, q ∈ node_universe a valves :=
      fun q hq => hts q (List.mem_cons_of_mem _ hq)
    cases hn : alookup costs n with
    | none =>
      have hstep : relax_all cost (n :: rest) costs heap =
          relax_all cost rest (costs ++ [(n, cost + 1)]) (heap ++ [(cost + 1, n)]) := by
        rw [relax_all_cons_eq, hn]
      have hnotmem : n ∉ costs.map Prod.fst := by
        intro hmem
        have := alookup_isSome_of_mem_keys hmem
        rw [hn] at this
        cases this
      have hnodup2 : ((costs ++ [(n, cost + 1)]).map Prod.fst).Nodup := by
        rw [List.map_append]
        refine List.Nodup.append hnodup (by simp) ?_
        intro x hx hy
        simp only [List.map_cons, List.map_nil, List.mem_singleton] at hy
        subst hy
        exact hnotmem hx
      have hvb2 : ∀ e ∈ costs ++ [(n, cost + 1)],
          e.2 + 1 ≤ (costs ++ [(n, cost + 1)]).length := by
        intro e he
        rcases List.mem_append.1 he with he2 | he2
        · have := hvb e he2
          simp only [List.length_append, List.length_singleton]
          omega
        · rcases List.mem_singleton.1 he2 with rfl
          simp only [List.length_append, List.length_singleton]
          omega
      have hcb2 : cost + 1 ≤ (costs ++ [(n, cost + 1)]).length := by
        simp only [List.length_append, List.length_singleton]
        omega
      obtain ⟨costs2, heap2, hrec, ⟨pushed, hhdec, hpush⟩, hlook, hnb, hnd2, horig,
        hlen1, hvb3, hcb3, hdphi⟩ :=
        relax_all_spec valves a cost rest (costs ++ [(n, cost + 1)])
          (heap ++ [(cost + 1, n)]) hnodup2 hvb2 hcb2 hcU hrestU
      have hlookup_n : alookup (costs ++ [(n, cost + 1)]) n = some (cost + 1) :=
        alookup_append_singleton_self _ hn
      have hmem_heap2 : (cost + 1, n) ∈ heap2 := by
        rw [hhdec]
        exact List.mem_append.2 (Or.inl (List.mem_append.2 (Or.inr (List.mem_singleton.2 rfl))))
      refine ⟨costs2, heap2, hstep.trans hrec, ?_, ?_, ?_, hnd2, ?_, ?_, ?_, hcb3, ?_⟩
      · refine ⟨(cost + 1, n) :: pushed, ?_, ?_⟩
        · rw [hhdec, List.append_assoc]
          rfl
        · intro e he
          rcases List.mem_cons.1 he with rfl | he2
          · exact ⟨rfl, List.mem_cons_self _ _⟩
          · exact ⟨(hpush e he2).1, List.mem_cons_of_mem _ (hpush e he2).2⟩
      · intro p
        by_cases hpn : p = n
        · subst hpn
          rcases hlook p with heq | ⟨_, hsome2, hmem2, _⟩
          · exact Or.inr ⟨List.mem_cons_self _ _, heq.trans hlookup_n, hmem_heap2,
              fun c0 hc0 => by rw [hn] at hc0; cases hc0⟩
          · exact Or.inr ⟨List.mem_cons_self _ _, hsome2, hmem2,
              fun c0 hc0 => by rw [hn] at hc0; cases hc0⟩
        · rcases hlook p with heq | ⟨hrest2, hsome2, hmem2, hstrict⟩
          · exact Or.inl (heq.trans (alookup_append_singleton_ne _ hpn))
          · refine Or.inr ⟨List.mem_cons_of_mem _ hrest2, hsome2, hmem2, ?_⟩
            intro c0 hc0
            exact hstrict c0 ((alookup_append_singleton_ne _ hpn).symm ▸ hc0)
      · intro q hq
        rcases List.mem_cons.1 hq with rfl | hq2
        · rcases hlook q with heq | ⟨_, hsome2, _, _⟩
          · exact ⟨cost + 1, heq.trans hlookup_n, Nat.le_refl _⟩
          · exact ⟨cost + 1, hsome2, Nat.le_refl _⟩
        · exact hnb q hq2
      · intro e he
        rcases horig e he with he2 | ⟨hets, hev⟩
        · rcases List.mem_append.1 he2 with he3 | he3
          · exact Or.inl he3
          · rcases List.mem_singleton.1 he3 with rfl
            exact Or.inr ⟨List.mem_cons_self _ _, rfl⟩
        · exact Or.inr ⟨List.mem_cons_of_mem _ hets, hev⟩
      · calc costs.length ≤ (costs ++ [(n, cost + 1)]).length := by
              simp only [List.length_append, List.length_singleton]
              omega
          _ ≤ costs2.length := hlen1
      · exact hvb3
      · refine Nat.le_trans hdphi ?_
        unfold dphi
        have hsum : ((node_universe a valves).map
            (dpot (node_universe a valves) (costs ++ [(n, cost + 1)]))).sum <
            ((node_universe a valves).map (dpot (node_universe a valves) costs)).sum := by
          apply sum_lt_pointwise ?_ hnU ?_
          · intro p _
            by_cases hpn : p = n
            · subst hpn
              rw [dpot_some hlookup_n, dpot_none hn]
              omega
            · rw [dpot_congr (alookup_append_singleton_ne _ hpn)]
          · rw [dpot_some hlookup_n, dpot_none hn]
            omega
        simp only [List.length_append, List.length_singleton]
        omega
    | some c =>
      by_cases hlt : cost + 1 < c
      · have hstep : relax_all cost (n :: rest) costs heap =
            relax_all cost rest (assoc_set costs n (cost + 1))
              (heap ++ [(cost + 1, n)]) := by
          rw [relax_all_cons_eq, hn]
          dsimp only
          rw [if_pos hlt]
        have hcmem : (n, c) ∈ costs := mem_of_alookup_eq_some hn
        have hcbound := hvb _ hcmem
        have hnodup2 : ((assoc_set costs n (cost + 1)).map Prod.fst).Nodup := by
          rw [assoc_set_keys]
          exact hnodup
        have hvb2 : ∀ e ∈ assoc_set costs n (cost + 1),
            e.2 + 1 ≤ (assoc_set costs n (cost + 1)).length := by
          intro e he
          rw [assoc_set_length]
          rcases mem_assoc_set he with he2 | he2
          · exact hvb e he2
          · subst he2
            simp only
            omega
        have hcb2 : cost + 1 ≤ (assoc_set costs n (cost + 1)).length := by
          rw [assoc_set_length]
          exact hcb
        obtain ⟨costs2, heap2, hrec, ⟨pushed, hhdec, hpush⟩, hlook, hnb, hnd2, horig,
          hlen1, hvb3, hcb3, hdphi⟩ :=
          relax_all_spec valves a cost rest (assoc_set costs n (cost + 1))
            (heap ++ [(cost + 1, n)]) hnodup2 hvb2 hcb2 hcU hrestU
        have hlookup_n : alookup (assoc_set costs n (cost + 1)) n = some (cost + 1) :=
          alookup_assoc_set_self _ (by rw [hn]; rfl)
        have hmem_heap2 : (cost + 1, n) ∈ heap2 := by
          rw [hhdec]
          exact List.mem_append.2 (Or.inl (List.mem_append.2 (Or.inr (List.mem_singleton.2 rfl))))
        refine ⟨costs2, heap2, hstep.trans hrec, ?_, ?_, ?_, hnd2, ?_, ?_, ?_, hcb3, ?_⟩
        · refine ⟨(cost + 1, n) :: pushed, ?_, ?_⟩
          · rw [hhdec, List.append_assoc]
            rfl
          · intro e he
            rcases List.mem_cons.1 he with rfl | he2
            · exact ⟨rfl, List.mem_cons_self _ _⟩
            · exact ⟨(hpush e he2).1, List.mem_cons_of_mem _ (hpush e he2).2⟩
        · intro p
          by_cases hpn : p = n
          · subst hpn
            rcases hlook p with heq | ⟨_, hsome2, hmem2, _⟩
            · refine Or.inr ⟨List.mem_cons_self _ _, heq.trans hlookup_n, hmem_heap2, ?_⟩
              intro c0 hc0
              rw [hn] at hc0
              injection hc0 with hc0e
              omega
            · refine Or.inr ⟨List.mem_cons_self _ _, hsome2, hmem2, ?_⟩
              intro c0 hc0
              rw [hn] at hc0
              injection hc0 with hc0e
              omega
          · rcases hlook p with heq | ⟨hrest2, hsome2, hmem2, hstrict⟩
            · exact Or.inl (heq.trans (alookup_assoc_set_ne _ hpn))
            · refine Or.inr ⟨List.mem_cons_of_mem _ hrest2, hsome2, hmem2, ?_⟩
              intro c0 hc0
              exact hstrict c0 ((alookup_assoc_set_ne _ hpn).symm ▸ hc0)
        · intro q hq
          rcases List.mem_cons.1 hq with rfl | hq2
          · rcases hlook q with heq | ⟨_, hsome2, _, _⟩
            · exact ⟨cost + 1, heq.trans hlookup_n, Nat.le_refl _⟩
            · exact ⟨cost + 1, hsome2, Nat.le_refl _⟩
          · exact hnb q hq2
        · intro e he
          rcases horig e he with he2 | ⟨hets, hev⟩
          · rcases mem_assoc_set he2 with he3 | he3
            · exact Or.inl he3
            · subst he3
              exact Or.inr ⟨List.mem_cons_self _ _, rfl⟩
          · exact Or.inr ⟨List.mem_cons_of_mem _ hets, hev⟩
        · calc costs.length = (assoc_set costs n (cost + 1)).length :=
                (assoc_set_length _ _ _).symm
            _ ≤ costs2.length := hlen1
        · exact hvb3
        · refine Nat.le_trans hdphi ?_
          unfold dphi
          have hsum : ((node_universe a valves).map
              (dpot (node_universe a valves) (assoc_set costs n (cost + 1)))).sum <
              ((node_universe a valves).map (dpot (node_universe a valves) costs)).sum := by
            apply sum_lt_pointwise ?_ hnU ?_
            · intro p _
              by_cases hpn : p = n
              · subst hpn
                rw [dpot_some hlookup_n, dpot_some hn]
                omega
              · rw [dpot_congr (alookup_assoc_set_ne _ hpn)]
            · rw [dpot_some hlookup_n, dpot_some hn]
              omega
          simp only [List.length_append, List.length_singleton]
          omega
      · have hstep : relax_all cost (n :: rest) costs heap =
            relax_all cost rest costs heap := by
          rw [relax_all_cons_eq, hn]
          dsimp only
          rw [if_neg hlt]
        obtain ⟨costs2, heap2, hrec, ⟨pushed, hhdec, hpush⟩, hlook, hnb, hnd2, horig,
          hlen1, hvb3, hcb3, hdphi⟩ :=
          relax_all_spec valves a cost rest costs heap hnodup hvb hcb hcU hrestU
        refine ⟨costs2, heap2, hstep.trans hrec, ?_, ?_, ?_, hnd2, ?_, hlen1, hvb3, hcb3, hdphi⟩
        · exact ⟨pushed, hhdec,
            fun e he => ⟨(hpush e he).1, List.mem_cons_of_mem _ (hpush e he).2⟩⟩
        · intro p
          rcases hlook p with heq | ⟨hrest2, hsome2, hmem2, hstrict⟩
          · exact Or.inl heq
          · exact Or.inr ⟨List.mem_cons_of_mem _ hrest2, hsome2, hmem2, hstrict⟩
        · intro q hq
          rcases List.mem_cons.1 hq with rfl | hq2
          · rcases hlook q with heq | ⟨_, hsome2, _, _⟩
            · refine ⟨c, heq.trans hn, ?_⟩
              omega
            · exact ⟨cost + 1, hsome2, Nat.le_refl _⟩
          · exact hnb q hq2
        · intro e he
          rcases horig e he with he2 | ⟨hets, hev⟩
          · exact Or.inl he2
          · exact Or.inr ⟨List.mem_cons_of_mem _ hets, hev⟩

theorem dinv_absorb (valves : ValveMap) (a b : ValveId) (S : List ValveId)
    (costs : List (ValveId × Nat))
    (hS : ∀ p ∈ S, p ≠ b ∧ ∃ cp, alookup costs p = some cp ∧
      (∀ m, walkB valves m a p = true → cp ≤ m) ∧
      ∀ q ∈ tunnels_of valves p, ∃ cq, alookup costs q = some cq ∧ cq ≤ cp + 1) :
    ∀ (L : Nat) (u t : ValveId) (cu base : Nat),
      alookup costs u = some cu → cu ≤ base → walkB valves L u t = true →
      (∃ v cv j, alookup costs v = some cv ∧ v ∉ S ∧ j ≤ L ∧ cv ≤ base + j) ∨
      (t ∈ S ∧ ∃ ct, alookup costs t = some ct ∧ ct ≤ base + L)
  | 0, u, t, cu, base, hu, hub, hw => by
    by_cases huS : u ∈ S
    · rw [walkB_zero] at hw
      subst hw
      exact Or.inr ⟨huS, cu, hu, by omega⟩
    · exact Or.inl ⟨u, cu, 0, hu, huS, Nat.zero_le _, by omega⟩
  | L + 1, u, t, cu, base, hu, hub, hw => by
    by_cases huS : u ∈ S
    · obtain ⟨q, hq, hwq⟩ := walkB_succ.1 hw
      obtain ⟨_, cp, hcp, _, hnb⟩ := hS u huS
      rw [hu] at hcp
      injection hcp with he
      subst he
      obtain ⟨cq, hcq, hcqle⟩ := hnb q hq
      rcases dinv_absorb valves a b S costs hS L q t cq (base + 1) hcq (by omega) hwq with
        ⟨v, cv, j, h1, h2, h3, h4⟩ | ⟨htS, ct, hct, hctle⟩
      · exact Or.inl ⟨v, cv, j + 1, h1, h2, by omega, by omega⟩
      · exact Or.inr ⟨htS, ct, hct, by omega⟩
    · exact Or.inl ⟨u, cu, 0, hu, huS, Nat.zero_le _, by omega⟩

theorem dijkstra_loop_succ_eq (valves : ValveMap) (finish : ValveId) (fuel : Nat)
    (heap : List (Nat × ValveId)) (costs : List (ValveId × Nat)) :
    dijkstra_loop valves finish (fuel + 1) heap costs =
      match pop_min heap with
      | none => .unreachable
      | some ((cost, pos), rest) =>
        if pos = finish then .found cost
        else
          match alookup costs pos with
          | none => .panicked
          | some cp =>
            if cp < cost then dijkstra_loop valves finish fuel rest costs
            else
              match alookup valves pos with
              | none => .panicked
              | some v =>
                dijkstra_loop valves finish fuel
                  (relax_all cost v.tunnels costs rest).2
                  (relax_all cost v.tunnels costs rest).1 := rfl

theorem dijkstra_loop_spec (valves : ValveMap) (a b : ValveId)
    (hclosed : ClosedMap valves) :
    ∀ (fuel : Nat) (heap : List (Nat × ValveId)) (costs : List (ValveId × Nat))
      (S : List ValveId),
      DInv valves a b S heap costs →
      dphi (node_universe a valves) costs heap < fuel →
      ∃ r, dijkstra_loop valves b fuel heap costs = dresult r ∧ IsMinWalk valves a b r
  | 0, _, _, _, _, hfuel => absurd hfuel (Nat.not_lt_zero _)
  | fuel + 1, heap, costs, S, hinv, hfuel => by
    obtain ⟨hnodup, hentries, hstart, hheap, hguard, hsettled⟩ := hinv
    cases hpop : pop_min heap with
    | none =>
      cases heap with
      | cons h0 hrest =>
        have := pop_min_cons_isSome h0 hrest
        rw [hpop] at this
        cases this
      | nil =>
        refine ⟨none, by rw [dijkstra_loop_succ_eq]; rfl, ?_⟩
        intro m hw
        have hall : ∀ p cp, alookup costs p = some cp → p ∈ S := by
          intro p cp hp
          by_contra hns
          cases hguard p cp hp hns
        have hchain : ∀ (L : Nat) (u t : ValveId) (cu : Nat),
            alookup costs u = some cu → walkB valves L u t = true →
            ∃ ct, alookup costs t = some ct := by
          intro L
          induction L with
          | zero =>
            intro u t cu hu hwz
            rw [walkB_zero] at hwz
            subst hwz
            exact ⟨cu, hu⟩
          | succ L ih =>
            intro u t cu hu hws
            obtain ⟨q, hq, hwq⟩ := walkB_succ.1 hws
            obtain ⟨_, cp, hcp, _, hnb⟩ := hsettled u (hall u cu hu)
            obtain ⟨cq, hcq, _⟩ := hnb q hq
            exact ih q t cq hcq hwq
        obtain ⟨ct, hct⟩ := hchain m a b 0 hstart hw
        exact (hsettled b (hall b ct hct)).1 rfl
    | some pr =>
      rcases pr with ⟨⟨cost, pos⟩, rest⟩
      have hperm := pop_min_perm hpop
      have hpop_mem : (cost, pos) ∈ heap := hperm.mem_iff.2 (List.mem_cons_self _ _)
      have hmin := pop_min_le hpop
      obtain ⟨hwpop, cp0, hcp0, hcp0le⟩ := hheap _ hpop_mem
      have hlen : heap.length = rest.length + 1 := by
        rw [hperm.length_eq]
        rfl
      have hdphi_rest : dphi (node_universe a valves) costs rest <
          dphi (node_universe a valves) costs heap := by
        unfold dphi
        omega
      by_cases hfin : pos = b
      · subst hfin
        refine ⟨some cost, ?_, hwpop, ?_⟩
        · rw [dijkstra_loop_succ_eq, hpop]
          dsimp only
          rw [if_pos rfl]
          rfl
        · intro m hw
          rcases dinv_absorb valves a pos S costs hsettled m a pos 0 0 hstart
            (Nat.le_refl _) hw with
            ⟨v, cv, j, hv, hvS, hjle, hcvle⟩ | ⟨hbS, _⟩
          · have hvheap := hguard v cv hv hvS
            have := hmin _ hvheap
            omega
          · exact absurd rfl (hsettled pos hbS).1
      · rw [dijkstra_loop_succ_eq, hpop]
        dsimp only
        rw [if_neg hfin, hcp0]
        dsimp only
        by_cases hstale : cp0 < cost
        · rw [if_pos hstale]
          apply dijkstra_loop_spec valves a b hclosed fuel rest costs S ?_ (by omega)
          refine ⟨hnodup, hentries, hstart, ?_, ?_, hsettled⟩
          · intro e he
            exact hheap e (hperm.mem_iff.2 (List.mem_cons_of_mem _ he))
          · intro p cp hp hns
            have hh := hguard p cp hp hns
            rcases List.mem_cons.1 (hperm.mem_iff.1 hh) with heq | hmem2
            · injection heq with h1 h2
              subst h1
              subst h2
              rw [hp] at hcp0
              injection hcp0 with h3
              omega
            · exact hmem2
        · rw [if_neg hstale]
          have hcpeq : cp0 = cost := Nat.le_antisymm hcp0le (Nat.le_of_not_lt hstale)
          subst hcpeq
          have hposmem := mem_of_alookup_eq_some hcp0
          have hposkeys : pos ∈ valves.map Prod.fst := (hentries _ hposmem).2.1
          cases hvlv : alookup valves pos with
          | none =>
            have := alookup_isSome_of_mem_keys hposkeys
            rw [hvlv] at this
            cases this
          | some v =>
            dsimp only
            have htun : tunnels_of valves pos = v.tunnels := by
              unfold tunnels_of
              rw [hvlv]
              rfl
            have hmin_pos : ∀ m, walkB valves m a pos = true → cp0 ≤ m := by
              intro m hw
              rcases dinv_absorb valves a b S costs hsettled m a pos 0 0 hstart
                (Nat.le_refl _) hw with
                ⟨vv, cv, j, hv2, hvS, hjle, hcvle⟩ | ⟨hposS, ct, hct, hctle⟩
              · have hvheap := hguard vv cv hv2 hvS
                have := hmin _ hvheap
                omega
              · rw [hcp0] at hct
                injection hct with h3
                omega
            have htsU : ∀ q ∈ v.tunnels, q ∈ node_universe a valves := by
              intro q hq
              unfold node_universe
              refine List.mem_cons_of_mem _ ?_
              refine List.mem_flatMap.2 ⟨(pos, v), mem_of_alookup_eq_some hvlv, ?_⟩
              exact List.mem_cons_of_mem _ hq
            have htskeys : ∀ q ∈ v.tunnels, q ∈ valves.map Prod.fst := by
              intro q hq
              exact hclosed pos hposkeys q (htun ▸ hq)
            have hvb0 : ∀ e ∈ costs, e.2 + 1 ≤ costs.length :=
              fun e he => (hentries e he).2.2.1
            have hcostlen : cp0 + 1 ≤ costs.length := (hentries _ hposmem).2.2.1
            have hUlen : costs.length ≤ (node_universe a valves).length := by
              have h5 : (costs.map Prod.fst).length ≤ (node_universe a valves).length := by
                apply nodup_subset_length hnodup
                intro x hx
                obtain ⟨e, he, hex⟩ := List.mem_map.1 hx
                subst hex
                exact (hentries e he).1
              simpa using h5
            obtain ⟨costs2, heap2, hrel, ⟨pushed, hhdec, hpush⟩, hlook, hnb, hnd2,
              horig, hlen1, hvb2, hcb2, hdphi2⟩ :=
              relax_all_spec valves a cp0 v.tunnels costs rest hnodup hvb0 hcostlen
                (Nat.le_trans hcostlen hUlen) htsU
            rw [hrel]
            dsimp only
            apply dijkstra_loop_spec valves a b hclosed fuel heap2 costs2 (pos :: S)
              ?_ (by omega)
            refine ⟨hnd2, ?_, ?_, ?_, ?_, ?_⟩
            · intro e he
              rcases horig e he with he2 | ⟨hets, hev⟩
              · exact ⟨(hentries e he2).1, (hentries e he2).2.1, hvb2 e he,
                  (hentries e he2).2.2.2⟩
              · refine ⟨htsU _ hets, htskeys _ hets, hvb2 e he, ?_⟩
                rw [hev]
                exact walk_extend hwpop (htun ▸ hets)
            · rcases hlook a with heq | ⟨_, _, _, hstrict⟩
              · exact heq.trans hstart
              · have := hstrict 0 hstart
                omega
            · intro e he
              rw [hhdec] at he
              rcases List.mem_append.1 he with he2 | he2
              · obtain ⟨hwold, cpx, hx, hxle⟩ :=
                  hheap e (hperm.mem_iff.2 (List.mem_cons_of_mem _ he2))
                refine ⟨hwold, ?_⟩
                rcases hlook e.2 with heq | ⟨_, hsome2, _, hstrict⟩
                · exact ⟨cpx, heq.trans hx, hxle⟩
                · refine ⟨cp0 + 1, hsome2, ?_⟩
                  have := hstrict cpx hx
                  omega
              · obtain ⟨hec, hets⟩ := hpush e he2
                obtain ⟨cq, hcq, hcqle⟩ := hnb e.2 hets
                refine ⟨?_, cq, hcq, by omega⟩
                have hw2 := walk_extend hwpop (htun ▸ hets)
                rw [hec]
                exact hw2
            · intro p cp2 hp2 hns
              have hpnpos : p ≠ pos := fun hh => hns (hh ▸ List.mem_cons_self _ _)
              have hpnS : p ∉ S := fun hh => hns (List.mem_cons_of_mem _ hh)
              rcases hlook p with heq | ⟨_, hsome2, hmemh, _⟩
              · have hold := hguard p cp2 (heq.symm.trans hp2) hpnS
                rcases List.mem_cons.1 (hperm.mem_iff.1 hold) with heq2 | hmem2
                · injection heq2 with h1 h2
                  exact absurd h2 hpnpos
                · rw [hhdec]
                  exact List.mem_append.2 (Or.inl hmem2)
              · rw [hp2] at hsome2
                injection hsome2 with h3
                rw [h3]
                exact hmemh
            · intro p hp
              rcases List.mem_cons.1 hp with rfl | hpS
              · refine ⟨hfin, cp0, ?_, ?_, ?_⟩
                · rcases hlook p with heq | ⟨_, _, _, hstrict⟩
                  · exact heq.trans hcp0
                  · have := hstrict cp0 hcp0
                    omega
                · exact hmin_pos
                · intro q hq
                  obtain ⟨cq, hcq, hcqle⟩ := hnb q (htun ▸ hq)
                  exact ⟨cq, hcq, hcqle⟩
              · obtain ⟨hpb, cp, hcp, hminp, hnbp⟩ := hsettled p hpS
                have hcp2 : alookup costs2 p = some cp := by
                  rcases hlook p with heq | ⟨hpts, hsome2, _, hstrict⟩
                  · exact heq.trans hcp
                  · have hwnew : walkB valves (cp0 + 1) a p = true :=
                      walk_extend hwpop (htun ▸ hpts)
                    have := hminp _ hwnew
                    have := hstrict cp hcp
                    omega
                refine ⟨hpb, cp, hcp2, hminp, ?_⟩
                intro q hq
                obtain ⟨cq, hcq, hcqle⟩ := hnbp q hq
                rcases hlook q with heq | ⟨_, hsome2, _, hstrict⟩
                · exact ⟨cq, heq.trans hcq, hcqle⟩
                · refine ⟨cp0 + 1, hsome2, ?_⟩
                  have := hstrict cq hcq
                  omega

theorem calc_distance_spec (valves : ValveMap) (a b : ValveId)
    (hclosed : ClosedMap valves) (ha : a ∈ valves.map Prod.fst) :
    ∃ r, calc_distance a b valves = dresult r ∧ IsMinWalk valves a b r := by
  unfold calc_distance
  refine dijkstra_loop_spec valves a b hclosed _ _ _ [] ?_ ?_
  · refine ⟨by simp [alookup], ?_, by simp [alookup], ?_, ?_, by simp⟩
    · intro e he
      rcases List.mem_singleton.1 he with rfl
      exact ⟨List.mem_cons_self _ _, ha, by simp, walkB_zero.2 rfl⟩
    · intro e he
      rcases List.mem_singleton.1 he with rfl
      exact ⟨walkB_zero.2 rfl, 0, by simp [alookup], Nat.le_refl _⟩
    · intro p cp hp _
      simp only [alookup] at hp
      by_cases hap : a = p
      · subst hap
        rw [if_pos rfl] at hp
        injection hp with h2
        subst h2
        exact List.mem_singleton.2 rfl
      · rw [if_neg hap] at hp
        cases hp
  · unfold dijkstra_fuel dphi
    have hbound : ((node_universe a valves).map
        (dpot (node_universe a valves) [(a, 0)])).sum ≤
        (node_universe a valves).length * ((node_universe a valves).length + 1) := by
      have h1 := List.sum_le_card_nsmul
        ((node_universe a valves).map (dpot (node_universe a valves) [(a, 0)]))
        ((node_universe a valves).length + 1) ?_
      · simpa [Nat.smul_one_eq_cast] using h1
      · intro x hx
        obtain ⟨p, _, hpx⟩ := List.mem_map.1 hx
        subst hpx
        cases hl : alookup [(a, 0)] p with
        | none =>
          rw [dpot_none hl]
        | some c =>
          rw [dpot_some hl]
          simp only [alookup] at hl
          by_cases hap : a = p
          · rw [if_pos hap] at hl
            injection hl with h2
            omega
          · rw [if_neg hap] at hl
            cases hl
    have hring : ((node_universe a valves).length + 1) *
        ((node_universe a valves).length + 2) =
        (node_universe a valves).length * ((node_universe a valves).length + 1) +
          2 * ((node_universe a valves).length + 1) := by ring
    simp only [List.length_singleton]
    omega

/-! ## Claims -/

/-- C1 (code bug): `find_max_pressure_release` does not return the maximum
achievable total score.  On the concrete connected symmetric corridor graph
`cb_valves`/`cb_dists` with one agent and a time budget of 12 it returns 1020,
although the legal opening sequence `AB, AC, AD` scores 1200: the pruning bound
`potential_score` sorts the unopened valves by valve id instead of by flow
rate, under-counts the east chain (ids `AB < AC < AD` below the flow-1 ids
`ZA, ZB, ZC`), and the branch-and-bound cutoff discards the optimal branch. -/
theorem c1_search_returns_suboptimal :
    find_max_pressure_release 1 12 cb_valves cb_dists = some 1020 ∧
    run_choices cb_valves cb_dists (State.new 1 start_id 12)
      [(0, idAB), (0, idAC), (0, idAD)] = some 1200 :=
  ⟨by decide, by decide⟩

/-- C2 (code bug): `potential_score` is not an admissible bound.  The state
`cb_s2` (position `AC`, `AB` and `AC` opened, 4 time units left) is reachable
during the search (`Produced`), its `potential_score` is 6, yet the single
legal continuation of opening `AD` scores 200 > 6: the id-descending sort
pairs the flow-1 valves `ZA, ZB, ZC` with all three available time slots and
drops the flow-100 valve `AD` from the zip entirely. -/
theorem c2_potential_undercounts :
    Produced 1 cb_valves cb_dists 12 cb_s2 ∧
    State.potential_score 1 cb_s2 cb_valves = some 6 ∧
    run_choices cb_valves cb_dists cb_s2 [(0, idAD)] = some 200 ∧ 6 < 200 := by
  refine ⟨?_, by decide, by decide, by decide⟩
  have h1 : Produced 1 cb_valves cb_dists 12 (⟨[idAB], [idAB], [6], 0⟩ : State) :=
    Produced.step Produced.base (by decide)
      (show ((⟨[idAB], [idAB], [6], 0⟩ : State), 600) ∈
        (State.next_states 1 (State.new 1 start_id 12) cb_valves cb_dists).getD []
        by decide)
  exact Produced.step h1 (by decide)
    (show (cb_s2, 400) ∈
      (State.next_states 1 (⟨[idAB], [idAB], [6], 0⟩ : State) cb_valves cb_dists).getD []
      by decide)

/-- C3 (counterexample): `potential_score` does not pair the time slots with the
unopened valves sorted by flow rate descending.  With unopened valves `AB`
(flow 100, small id) and `ZA` (flow 1, large id) and 4 time units,
`potential_score` gives `4*1 + 2*100 = 204`, while the flow-rate-descending
pairing claimed by the specification gives `4*100 + 2*1 = 402`. -/
theorem c3_counterexample :
    State.potential_score 1 p3_state p3_valves ≠
      some (potential_by_flow 1 p3_state p3_valves) := by
  decide

/-- C3 (amended): for every state, `potential_score` computes, per agent, the
sum of `time_slot * flow_rate` obtained by pairing the agent's descending
2-unit time slots against the unopened positive-flow valves sorted by valve id
descending (highest id gets the largest time slot). -/
theorem c3_pairs_sorted_by_id (N : Nat) (s : State) (valves : ValveMap) :
    State.potential_score N s valves = some (potential_by_id N s valves) :=
  potential_score_eq N s valves

/-- C4 (counterexample): a missing distance-table entry makes transition
generation panic (embedded as `none`) rather than skipping the valve.  Here
the pair `(AA, BB)` is absent while `(AA, CC)` is present, and `next_states`
produces no transition list at all instead of the `CC` transition. -/
theorem c4_counterexample :
    State.next_states 1 (State.new 1 start_id 10) m4_valves m4_dists = none := by
  decide

/-- C4 (amended): when the distance table has an entry for every pair that
transition generation queries, `next_states` panics on none of them and
produces the transition list. -/
theorem c4_no_panic_when_complete (N : Nat) (s : State) (valves : ValveMap)
    (dists : DistTable)
    (h : ∀ i ∈ List.range N, ∀ v ∈ s.not_visited valves,
      (alookup dists (s.current_pos.getD i 0, v)).isSome) :
    ∃ l, State.next_states N s valves dists = some l := by
  rw [State.next_states, transitions_for_eq]
  · exact ⟨_, rfl⟩
  · intro p hp
    obtain ⟨hi, hv⟩ := List.mem_product.1 hp
    exact gen_transition_ne_none (h p.1 hi p.2 hv) (not_visited_sub_keys hv)

/-- Witness for C4 (amended) on the specification's fixture graph. -/
theorem c4_witness :
    ∃ l, State.next_states 1 (State.new 1 start_id 6) fix_valves fix_dists = some l :=
  c4_no_panic_when_complete 1 (State.new 1 start_id 6) fix_valves fix_dists (by decide)

/-- C5 (counterexample): with `remaining_time = distance + 1` (time 4, distance
3) the transition IS generated — `time > distance` holds — arriving with zero
remaining time and zero score increase, contradicting the claim that no
transition is generated at this boundary. -/
theorem c5_counterexample :
    State.next_states 1 (State.new 1 start_id 4) b5_valves b5_dists =
      some [(⟨[idBB], [idBB], [0], 0⟩, 0)] := by
  decide

/-- C5 (amended): at `remaining_time = distance + 1` transition generation
produces the transition, with the agent's remaining time becoming 0 and a
score increase of 0 (transitions are excluded only when
`remaining_time ≤ distance`). -/
theorem c5_boundary_transition_generated (s : State) (valves : ValveMap)
    (dists : DistTable) (i : Nat) (v : ValveId) (d : Nat) (valve : Valve)
    (hd : alookup dists (s.current_pos.getD i 0, v) = some d)
    (ht : s.time.getD i 0 = d + 1)
    (hv : alookup valves v = some valve) :
    gen_transition s valves dists i v =
      some (some ({ current_pos := s.current_pos.set i v
                    visited := List.insertionSort (· ≤ ·) (s.visited ++ [v])
                    time := s.time.set i 0
                    score := s.score }, 0)) := by
  unfold gen_transition
  rw [hd]
  dsimp only
  rw [if_pos (by omega), hv]
  dsimp only
  rw [ht]
  simp

/-- Witness for C5 (amended): single valve `BB` at distance 3, time budget 4. -/
theorem c5_witness :
    gen_transition (State.new 1 start_id 4) b5_valves b5_dists 0 idBB =
      some (some (⟨[idBB], [idBB], [0], 0⟩, 0)) := by
  rw [c5_boundary_transition_generated (State.new 1 start_id 4) b5_valves b5_dists
    0 idBB 3 ⟨idBB, 9, []⟩ (by decide) (by decide) (by decide)]
  decide

/-- C6 (confirmed): for an unopened positive-flow valve `v`, agent `i < N` and
present distance entry `d`, a transition for `(i, v)` exists exactly when
`remaining_time[i] > d`; the generated transition moves agent `i` to `v`,
decreases that agent's time to `remaining_time[i] - d - 1`, adds `v` to the
re-sorted visited set, leaves every other agent's position and time unchanged,
scores `flow_rate(v) * new_remaining_time[i]`, and is an element of the
`next_states` list. -/
theorem c6_transition_characterization (N : Nat) (s : State) (valves : ValveMap)
    (dists : DistTable) (i : Nat) (v : ValveId) (d : Nat) (valve : Valve)
    (hi : i < N) (hv : v ∈ s.not_visited valves)
    (hd : alookup dists (s.current_pos.getD i 0, v) = some d)
    (hval : alookup valves v = some valve)
    (hall : ∀ j ∈ List.range N, ∀ w ∈ s.not_visited valves,
      (alookup dists (s.current_pos.getD j 0, w)).isSome) :
    ∃ l, State.next_states N s valves dists = some l ∧
      ((∃ e, gen_transition s valves dists i v = some (some e)) ↔
        s.time.getD i 0 > d) ∧
      ∀ e, gen_transition s valves dists i v = some (some e) →
        e ∈ l ∧
        e.1.current_pos = s.current_pos.set i v ∧
        e.1.time = s.time.set i (s.time.getD i 0 - (d + 1)) ∧
        (∀ x, x ∈ e.1.visited ↔ x ∈ s.visited ∨ x = v) ∧
        e.1.score = s.score ∧
        e.2 = valve.flow_rate * (s.time.getD i 0 - (d + 1)) ∧
        e.1.time.getD i 0 = s.time.getD i 0 - (d + 1) ∧
        (∀ j, j ≠ i → e.1.current_pos.getD j 0 = s.current_pos.getD j 0 ∧
          e.1.time.getD j 0 = s.time.getD j 0) := by
  have hne : ∀ p ∈ (List.range N).product (s.not_visited valves),
      gen_transition s valves dists p.1 p.2 ≠ none := by
    intro p hp
    obtain ⟨hji, hjv⟩ := List.mem_product.1 hp
    exact gen_transition_ne_none (hall p.1 hji p.2 hjv) (not_visited_sub_keys hjv)
  have hl : State.next_states N s valves dists =
      some (((List.range N).product (s.not_visited valves)).filterMap
        (fun p => (gen_transition s valves dists p.1 p.2).join)) := by
    rw [State.next_states, transitions_for_eq hne]
  refine ⟨_, hl, ?_, ?_⟩
  · constructor
    · rintro ⟨e, he⟩
      obtain ⟨d2, valve2, hd2, ht2, _, _⟩ := gen_transition_some_shape he
      rw [hd] at hd2
      injection hd2 with hdd
      omega
    · intro ht
      unfold gen_transition
      rw [hd]
      dsimp only
      rw [if_pos ht, hval]
      exact ⟨_, rfl⟩
  · intro e he
    obtain ⟨d2, valve2, hd2, ht2, hval2, hshape⟩ := gen_transition_some_shape he
    rw [hd] at hd2
    injection hd2 with hdd
    subst hdd
    rw [hval] at hval2
    injection hval2 with hvv
    subst hvv
    have htlen : i < s.time.length := by
      by_contra hcon
      rw [List.getD_eq_default _ _ (Nat.le_of_not_lt hcon)] at ht2
      omega
    subst hshape
    refine ⟨?_, rfl, rfl, fun x => mem_visited_child, rfl, rfl, ?_, ?_⟩
    · apply List.mem_filterMap.2
      refine ⟨(i, v), List.mem_product.2 ⟨List.mem_range.2 hi, hv⟩, ?_⟩
      rw [he]
      rfl
    · exact getD_set_self_of_lt _ htlen
    · intro j hj
      exact ⟨getD_set_ne _ hj, getD_set_ne _ hj⟩

/-- Witness for C6 on the fixture graph: agent 0 at `AA` with 6 time units,
valve `BB` at distance 1. -/
theorem c6_witness :
    ∃ l, State.next_states 1 (State.new 1 start_id 6) fix_valves fix_dists = some l ∧
      ((∃ e, gen_transition (State.new 1 start_id 6) fix_valves fix_dists 0 idBB =
          some (some e)) ↔ (State.new 1 start_id 6).time.getD 0 0 > 1) ∧
      ∀ e, gen_transition (State.new 1 start_id 6) fix_valves fix_dists 0 idBB =
          some (some e) →
        e ∈ l ∧
        e.1.current_pos = (State.new 1 start_id 6).current_pos.set 0 idBB ∧
        e.1.time = (State.new 1 start_id 6).time.set 0
          ((State.new 1 start_id 6).time.getD 0 0 - (1 + 1)) ∧
        (∀ x, x ∈ e.1.visited ↔ x ∈ (State.new 1 start_id 6).visited ∨ x = idBB) ∧
        e.1.score = (State.new 1 start_id 6).score ∧
        e.2 = (13 : Nat) * ((State.new 1 start_id 6).time.getD 0 0 - (1 + 1)) ∧
        e.1.time.getD 0 0 = (State.new 1 start_id 6).time.getD 0 0 - (1 + 1) ∧
        (∀ j, j ≠ 0 →
          e.1.current_pos.getD j 0 = (State.new 1 start_id 6).current_pos.getD j 0 ∧
          e.1.time.getD j 0 = (State.new 1 start_id 6).time.getD j 0) :=
  c6_transition_characterization 1 (State.new 1 start_id 6) fix_valves fix_dists
    0 idBB 1 ⟨idBB, 13, [start_id, idCC]⟩
    (by decide) (by decide) (by decide) (by decide) (by decide)

/-- C7 (confirmed): given a distance table with an entry for every pair the
search can query, `find_max_pressure_release` terminates without panicking and
returns a score: every transition strictly grows the shared visited set (so
strictly decreases the `sdepth` measure, bounded by the number of positive
valves), every loop iteration strictly decreases the heap potential `sphi`,
and the supplied fuel exceeds the initial potential. -/
theorem c7_search_terminates (N time : Nat) (valves : ValveMap) (dists : DistTable)
    (hcomp : DistComplete valves dists) :
    ∃ m, find_max_pressure_release N time valves dists = some m := by
  unfold find_max_pressure_release
  have h := search_loop_isSome N valves dists hcomp
    (sphi N valves [(State.new N start_id time, 0)] + 1)
    [(State.new N start_id time, 0)] [(State.new N start_id time, 0)] 0
    (Nat.lt_succ_self _)
    (by
      intro e he
      rcases List.mem_singleton.1 he with rfl
      exact StateOk_new N valves time)
    (by
      intro e he
      rcases List.mem_singleton.1 he with rfl
      simp [alookup])
  exact Option.isSome_iff_exists.1 h

/-- Witness for C7 on the fixture graph (with the self-distance entries that
`DistComplete` formally requires). -/
theorem c7_witness :
    ∃ m, find_max_pressure_release 1 6 fix_valves fix_dists_full = some m :=
  c7_search_terminates 1 6 fix_valves fix_dists_full
    (by unfold DistComplete; decide)

/-- C8 (confirmed): the search is a pure function of the time budget, the
valves map (with its fixed iteration order) and the distance table, so two
runs on identical input return the identical result. -/
theorem c8_deterministic (N time : Nat) (valves : ValveMap) (dists : DistTable) :
    find_max_pressure_release N time valves dists =
      find_max_pressure_release N time valves dists := rfl

/-- C10 (confirmed): every state produced by `State::new` or by `next_states`
from a produced state has `score = 0`; consequently equality of produced
states (the key of the best-score-seen map) depends only on
`(current_pos, visited, time)`. -/
theorem c10_score_zero_and_signature (N : Nat) (valves : ValveMap)
    (dists : DistTable) (time : Nat) :
    (∀ s, Produced N valves dists time s → s.score = 0) ∧
    (∀ s1 s2, Produced N valves dists time s1 → Produced N valves dists time s2 →
      (s1 = s2 ↔ s1.current_pos = s2.current_pos ∧ s1.visited = s2.visited ∧
        s1.time = s2.time)) := by
  have hzero : ∀ s, Produced N valves dists time s → s.score = 0 := by
    intro s hs
    induction hs with
    | base => rfl
    | step hs hsome hmem ih =>
      rename_i s0 ns inc
      cases hnse : State.next_states N s0 valves dists with
      | none => rw [hnse] at hsome; cases hsome
      | some l =>
        rw [hnse] at hmem
        simp only [Option.getD_some] at hmem
        have := score_child hnse hmem
        rw [← ih]
        exact this
  refine ⟨hzero, ?_⟩
  intro s1 s2 h1 h2
  constructor
  · intro h
    subst h
    exact ⟨rfl, rfl, rfl⟩
  · rintro ⟨hcp, hvis, ht⟩
    cases s1
    cases s2
    simp only at hcp hvis ht
    subst hcp; subst hvis; subst ht
    have e1 := hzero _ h1
    have e2 := hzero _ h2
    simp only at e1 e2
    rw [e1, e2]

/-- Witness for C10: the initial one-agent state with budget 5. -/
theorem c10_witness : (State.new 1 start_id 5).score = 0 :=
  (c10_score_zero_and_signature 1 [] [] 5).1 _ Produced.base

/-- C9 (counterexample): on a well-formed but directed graph — a tunnel from
`AA` to `BB` with no reverse tunnel — `calc_distance` is not symmetric:
`calc_distance(AA, BB)` is `Some 1` while `calc_distance(BB, AA)` is `None`. -/
theorem c9_counterexample :
    calc_distance start_id idBB asym_valves ≠
      calc_distance idBB start_id asym_valves := by
  decide

/-- C9 (amended): for every valves map whose tunnel lists stay inside the map
(`ClosedMap`) and whose tunnel relation is symmetric (`SymMap`), and for all
valve ids `a, b` in the map, `calc_distance(a, b) = calc_distance(b, a)`:
both runs compute the minimum tunnel-walk length between `a` and `b` (`None`
when unreachable), and walks reverse under a symmetric tunnel relation. -/
theorem c9_distance_symmetric (valves : ValveMap) (a b : ValveId)
    (hclosed : ClosedMap valves) (hsym : SymMap valves)
    (ha : a ∈ valves.map Prod.fst) (hb : b ∈ valves.map Prod.fst) :
    calc_distance a b valves = calc_distance b a valves := by
  obtain ⟨r1, h1, hm1⟩ := calc_distance_spec valves a b hclosed ha
  obtain ⟨r2, h2, hm2⟩ := calc_distance_spec valves b a hclosed hb
  rw [h1, h2, min_walk_unique hsym hm1 hm2]

/-- Witness for C9 (amended) on the fixture graph (symmetric, closed):
`AA` and `CC` are two hops apart in both directions. -/
theorem c9_witness :
    calc_distance start_id idCC fix_valves = calc_distance idCC start_id fix_valves :=
  c9_distance_symmetric fix_valves start_id idCC
    (by unfold ClosedMap; decide) (by unfold SymMap; decide) (by decide) (by decide)

end Day16
